import Mathlib

/-
Verification of the feature-enrichment pipeline of a rental-listing
data project (src/utils/preprocess.py, class PreprocessUtils).

The Python functions are shallowly embedded as executable Lean
definitions: pandas Series/DataFrame operations become operations on
lists, nullable cells become Option values, machine floats over the
numeric paths become exact rationals (ℚ) except for the school-goodness
score, whose logarithm is modelled over ℝ.  Each embedded definition is
named after the source method it models.
-/

set_option maxRecDepth 10000

namespace RealEstate

/-! ## Identity reconciler: deduplication by property id
    (preprocess_wayback_listings lines 1515-1517 and
    combine_and_sample_listings lines 1558-1560)

    The source sorts by (year, quarter) descending
    (df.sort_values(by=["year", "quarter"], ascending=False)) and keeps
    the first row per property_id
    (df.drop_duplicates(subset=["property_id"], keep="first")). -/

/-- A listing observation as far as deduplication is concerned. -/
structure Listing where
  property_id : ℤ
  year : ℤ
  quarter : ℤ
  deriving DecidableEq, Repr

/-- Lexicographic order on (year, quarter) vintage pairs. -/
def vintageLE (a b : ℤ × ℤ) : Prop :=
  a.1 < b.1 ∨ (a.1 = b.1 ∧ a.2 ≤ b.2)

instance (a b : ℤ × ℤ) : Decidable (vintageLE a b) := by
  unfold vintageLE; exact inferInstance

/-- The vintage key of a listing. -/
def vintage (r : Listing) : ℤ × ℤ := (r.year, r.quarter)

/-- Comparator realizing sort_values(by=["year","quarter"], ascending=False):
    a precedes b when b's vintage is at most a's. -/
def newerFirst (a b : Listing) : Prop := vintageLE (vintage b) (vintage a)

instance : DecidableRel newerFirst := by
  intro a b; unfold newerFirst; exact inferInstance

instance : IsTotal Listing newerFirst :=
  ⟨by intro a b; unfold newerFirst vintageLE vintage; dsimp only; omega⟩

instance : IsTrans Listing newerFirst :=
  ⟨by intro a b c; unfold newerFirst vintageLE vintage; dsimp only; omega⟩

/-- df.sort_values(by=["year", "quarter"], ascending=False): a permutation
    of the rows ordered by descending (year, quarter). -/
def sortListings (l : List Listing) : List Listing :=
  List.insertionSort newerFirst l

/-- df.drop_duplicates(subset=["property_id"], keep="first"): keep the first
    occurrence of each property_id. -/
def dropDuplicatesByPid : List Listing → List Listing
  | [] => []
  | r :: rs =>
    r :: dropDuplicatesByPid (rs.filter (fun x => x.property_id ≠ r.property_id))
termination_by l => l.length
decreasing_by
  simp only [List.length_cons]
  exact Nat.lt_succ_of_le (List.length_filter_le _ _)

/-- The deduplication pass shared by preprocess_wayback_listings and
    combine_and_sample_listings: sort newest-first, keep first per id. -/
def dedupListings (l : List Listing) : List Listing :=
  dropDuplicatesByPid (sortListings l)

/-! ## Strings as lists of character codes

    Python strings are modelled as lists of Unicode code points, so that
    str.lower, character tests and splitting are elementary functions on ℕ. -/

/-- A Python string, as its list of character codes. -/
abbrev Str := List ℕ

/-- Code points of a Lean string literal, for readable concrete inputs. -/
def codes (s : String) : Str := s.data.map Char.toNat

/-- ASCII str.lower on one code point. -/
def lowerCode (c : ℕ) : ℕ := if 65 ≤ c ∧ c ≤ 90 then c + 32 else c

instance (c : ℕ) : Decidable (65 ≤ c ∧ c ≤ 90) := inferInstance

/-- str.lower on a whole string. -/
def lowerStr (s : Str) : Str := s.map lowerCode

/-! ## Identity reconciler: suburb canonicalization
    (map_suburb, preprocess.py lines 52-81, inverted mapping lines 37-50,
    mapping construction in scripts/pickle_spatial_mapping.py) -/

/-- combo.split("-") from build_mapping (code point 45 is the hyphen). -/
def splitHyphen : Str → List Str
  | [] => [[]]
  | c :: rest =>
    if c = 45 then [] :: splitHyphen rest
    else
      match splitHyphen rest with
      | h :: t => (c :: h) :: t
      | [] => [[c]]

/-- Lexicographically sorted list of strings, modelling Python sorted(). -/
def sortStrs (l : List Str) : List Str :=
  List.insertionSort (fun a b : Str => a ≤ b) l

/-- build_mapping from pickle_spatial_mapping.py: lowercase both name lists,
    take the scraped suburb names absent from the locality names (sorted set
    difference), and map each such combo to its nonempty hyphen-split parts. -/
def buildMapping (suburbs localities : List Str) : List (Str × List Str) :=
  let sl := (suburbs.map lowerStr).dedup
  let ll := localities.map lowerStr
  let combos := sortStrs (sl.filter (fun s => s ∉ ll))
  combos.map (fun c => (c, (splitHyphen c).filter (fun p => p ≠ [])))

/-- _create_inverted_mapping: variant → canonical, built by iterating the
    mapping in order and assigning, so a later entry overwrites an earlier
    one.  Looking up a variant returns the last combo listing it. -/
def lookupInv (m : List (Str × List Str)) (v : Str) : Option Str :=
  m.foldl (fun acc kv => if v ∈ kv.2 then some kv.1 else acc) none

/-- map_suburb on one suburb name: lowercase, look up in the inverted
    mapping, and fall back to the lowercased input on a miss. -/
def mapSuburbName (m : List (Str × List Str)) (s : Str) : Str :=
  match lookupInv m (lowerStr s) with
  | some k => k
  | none => lowerStr s

/-- map_suburb on a whole series of suburb names. -/
def mapSuburbSeries (m : List (Str × List Str)) (l : List Str) : List Str :=
  l.map (mapSuburbName m)

/-! ## Missing-value imputer: grouped mode
    (impute_by_property_type_mode, preprocess.py lines 241-285)

    mode_by_type = df.groupby(property_type)[column].agg(
        lambda x: x.mode()[0] if len(x.mode()) > 0 else None);
    overall_mode = df[column].mode()[0] if nonempty else None;
    for each property type, rows of that type with a null cell receive
    mode_by_type.get(prop_type, overall_mode) when that value is not None.
    Since every observed type is a key of mode_by_type, the .get default
    (the overall mode) is only reachable for keys absent from the group
    index. -/

/-- pandas Series.mode()[0] on the non-null values: the smallest among the
    values of maximal multiplicity, or none when there are no values. -/
def modeOf (vals : List ℤ) : Option ℤ :=
  vals.dedup.foldl (fun acc x =>
    match acc with
    | none => some x
    | some b =>
      if vals.count b < vals.count x ∨ (vals.count x = vals.count b ∧ x < b) then
        some x
      else
        some b) none

/-- The non-null values of the target column within one property type. -/
def catVals (rows : List (Str × Option ℤ)) (t : Str) : List ℤ :=
  rows.filterMap (fun r => if r.1 = t then r.2 else none)

/-- The non-null values of the target column over the whole frame. -/
def allVals (rows : List (Str × Option ℤ)) : List ℤ :=
  rows.filterMap (fun r => r.2)

/-- overall_mode of impute_by_property_type_mode (computed by the source as
    a fallback, but only reachable when a property type is missing from the
    grouped index, which never happens for an observed type). -/
def overallMode (rows : List (Str × Option ℤ)) : Option ℤ :=
  modeOf (allVals rows)

/-- impute_by_property_type_mode: each row keeps its value when present and
    otherwise receives the mode of its own property type category; a
    category with no non-null observations stores None in mode_by_type, so
    its rows are left unfilled. -/
def imputeByPropertyTypeMode (rows : List (Str × Option ℤ)) : List (Option ℤ) :=
  rows.map (fun r =>
    match r.2 with
    | some v => some v
    | none => modeOf (catVals rows r.1))

/-- Failing input for the global-mode fallback: the only house row has a
    null bedroom count, and flats observe the values {2, 2, 3}. -/
def exRowsC5 : List (Str × Option ℤ) :=
  [(codes "house", none), (codes "flat", some 2),
   (codes "flat", some 2), (codes "flat", some 3)]

/-! ## Missing-value imputer: nearest geographic neighbour
    (impute_by_nearest_point, preprocess.py lines 335-459)

    The pass collects the indices of rows with any null target cell, then
    walks them in order; for each such row it restricts candidates to rows
    of the same suburb whose target cells are all non-null IN THE CURRENT
    working state (results), falls back to a global search, and copies the
    nearest candidate's cells into the row's null cells.  Distances are
    compared by squared Euclidean distance, which has the same first
    minimiser as shapely's Point.distance. -/

/-- A row as far as nearest-point imputation is concerned: suburb label,
    planar coordinates, and the target columns (bedrooms-like cells).
    Coordinates and cell values are modelled as exact integers; every
    statement proved about them is order-theoretic (argmin selection and
    copying), not arithmetic. -/
structure NRow where
  suburb : ℕ
  x : ℤ
  y : ℤ
  vals : List (Option ℤ)
  deriving DecidableEq, Repr

/-- Working state: the target cells of every row. -/
abbrev Cells := List (List (Option ℤ))

/-- The initial working state: every row's original target cells. -/
def origRes (df : List NRow) : Cells := df.map (fun r => r.vals)

/-- The target cells of row i (empty when i is out of range). -/
def rowVals (res : Cells) (i : ℕ) : List (Option ℤ) := res.getD i []

/-- One target cell (none when out of range). -/
def getCell (res : Cells) (i c : ℕ) : Option ℤ := (rowVals res i).getD c none

/-- Does the row have a null cell among the target columns? -/
def anyNone (row : List (Option ℤ)) : Bool := row.any (fun v => v.isNone)

/-- Are all target columns non-null? -/
def allSome (row : List (Option ℤ)) : Bool := row.all (fun v => v.isSome)

/-- The suburb of row j (0 when out of range). -/
def suburbAt (df : List NRow) (j : ℕ) : ℕ := ((df.get? j).map (fun r => r.suburb)).getD 0

/-- Squared Euclidean distance between the points of rows i and j, the
    monotone image of the distance the source compares with idxmin. -/
def dist2At (df : List NRow) (i j : ℕ) : ℤ :=
  match df.get? i, df.get? j with
  | some a, some b => (a.x - b.x) * (a.x - b.x) + (a.y - b.y) * (a.y - b.y)
  | _, _ => 0

/-- null_indices: indices of rows with any null target cell, in row order. -/
def nullIndices (df : List NRow) : List ℕ :=
  (List.range df.length).filter (fun i => anyNone (rowVals (origRes df) i))

/-- same_suburb candidates of row idx in state res: a different row of the
    same suburb with all target columns non-null in res. -/
def sameCands (df : List NRow) (res : Cells) (idx : ℕ) : List ℕ :=
  (List.range df.length).filter
    (fun j => decide (j ≠ idx) && decide (suburbAt df j = suburbAt df idx) &&
      allSome (rowVals res j))

/-- Global fallback candidates: any other row with all columns non-null. -/
def globalCands (df : List NRow) (res : Cells) (idx : ℕ) : List ℕ :=
  (List.range df.length).filter
    (fun j => decide (j ≠ idx) && allSome (rowVals res j))

/-- distances.idxmin(): the first index attaining the minimal distance. -/
def argminFirst (f : ℕ → ℤ) : List ℕ → Option ℕ
  | [] => none
  | j :: rest =>
    match argminFirst f rest with
    | none => some j
    | some k => if f j ≤ f k then some j else some k

/-- The candidate row the source copies from: nearest same-suburb candidate
    when one exists, otherwise nearest global candidate. -/
def chosenSource (df : List NRow) (res : Cells) (idx : ℕ) : Option ℕ :=
  if sameCands df res idx ≠ [] then
    argminFirst (fun j => dist2At df idx j) (sameCands df res idx)
  else
    argminFirst (fun j => dist2At df idx j) (globalCands df res idx)

/-- Fill the null cells of row a from row b, column by column. -/
def fillRow (a b : List (Option ℤ)) : List (Option ℤ) :=
  (List.range a.length).map (fun c =>
    match a.getD c none with
    | some v => some v
    | none => b.getD c none)

/-- Copy every null target cell of row idx from row src. -/
def copyRow (res : Cells) (idx src : ℕ) : Cells :=
  res.set idx (fillRow (rowVals res idx) (rowVals res src))

/-- One iteration of the imputation loop on row idx. -/
def imputeStep (df : List NRow) (res : Cells) (idx : ℕ) : Cells :=
  if anyNone (rowVals res idx) then
    match chosenSource df res idx with
    | some j => copyRow res idx j
    | none => res
  else
    res

/-- impute_by_nearest_point: walk the null rows in order, mutating the
    working state as the source does. -/
def imputeByNearestPoint (df : List NRow) : Cells :=
  (nullIndices df).foldl (imputeStep df) (origRes df)

/-- Modelled from the spec: imputing one row against the original
    (pre-pass) table in isolation, the row-independent reading of the
    concurrency section.  It is the single loop iteration run on the
    untouched initial state. -/
def imputeRowIsolated (df : List NRow) (i : ℕ) : List (Option ℤ) :=
  rowVals (imputeStep df (origRes df) i) i

/-- Counterexample table for sequential-vs-isolated imputation: rows A, B
    with a null cell and observed rows C (value 5) and D (value 7), all in
    one suburb, positioned so that A copies from C and B then copies A's
    freshly imputed value although its nearest observed row is D. -/
def exDfC4 : List NRow :=
  [NRow.mk 0 0 0 [none], NRow.mk 0 1 0 [none],
   NRow.mk 0 (-2) 0 [some 5], NRow.mk 0 3 0 [some 7]]

/-- Witness table for nearest-point provenance: row 0 lacks a value, row 1
    shares its suburb and observes 4, row 2 is a distant other suburb. -/
def exDfC3 : List NRow :=
  [NRow.mk 0 0 0 [none], NRow.mk 0 1 0 [some 4], NRow.mk 1 9 0 [some 9]]

/-! ## Missing-value imputer: cross-band school-feature fallback
    (impute_missing_school_features, preprocess.py lines 2350-2449)

    For each target band the source computes the rows whose four
    best-school sub-fields (name, coordinate, score, distance) are all
    missing, walks the target's ordered fallback chain, and copies the
    whole four-field block from the first candidate whose block was
    complete in the availability table precomputed on entry.  The target
    loop iterates walking_5min, walking_10min, driving_5min, driving_10min
    and driving_15min; walking_15min has a fallback chain in the table but
    is never iterated as a target.  The side copy into the n_schools count
    column touches no best-school sub-field and is outside this model. -/

/-- The six (mode, time-band) tokens. -/
inductive Band
  | w5
  | w10
  | w15
  | d5
  | d10
  | d15
  deriving DecidableEq, Repr

/-- The four best-school sub-fields of one band (exact stand-ins for
    name, coordinate, score and distance). -/
structure Block4 where
  name : Option ℤ
  coord : Option ℤ
  score : Option ℤ
  dist : Option ℤ
  deriving DecidableEq, Repr

/-- One listing row's school-feature block per band. -/
structure SchoolRow where
  w5 : Block4
  w10 : Block4
  w15 : Block4
  d5 : Block4
  d10 : Block4
  d15 : Block4
  deriving DecidableEq, Repr

/-- The block of one band. -/
def getBand (r : SchoolRow) : Band → Block4
  | .w5 => r.w5
  | .w10 => r.w10
  | .w15 => r.w15
  | .d5 => r.d5
  | .d10 => r.d10
  | .d15 => r.d15

/-- Replace the block of one band. -/
def setBand (r : SchoolRow) (t : Band) (b : Block4) : SchoolRow :=
  match t with
  | .w5 => { r with w5 := b }
  | .w10 => { r with w10 := b }
  | .w15 => { r with w15 := b }
  | .d5 => { r with d5 := b }
  | .d10 => { r with d10 := b }
  | .d15 => { r with d15 := b }

/-- all_fields_present: every sub-field of the band is non-null. -/
def allFieldsPresent (b : Block4) : Bool :=
  b.name.isSome && b.coord.isSome && b.score.isSome && b.dist.isSome

/-- The missing mask of the target loop: every sub-field is null. -/
def allFieldsMissing (b : Block4) : Bool :=
  b.name.isNone && b.coord.isNone && b.score.isNone && b.dist.isNone

/-- The per-target fallback chains of the source (the walking_15min chain
    is declared but the target loop never uses it). -/
def fallbackChain : Band → List Band
  | .w5 => [.w10, .w15, .d5, .d10, .d15]
  | .w10 => [.w15, .d5, .d10, .d15]
  | .w15 => [.d5, .d10, .d15]
  | .d5 => [.d10, .d15]
  | .d10 => [.d5, .d15]
  | .d15 => [.d10, .d5]

/-- The five bands the source's target loop iterates, in order; the claimed
    sixth target walking_15min is absent. -/
def imputeTargets : List Band := [.w5, .w10, .d5, .d10, .d15]

/-- One target iteration: when the current block of the target is entirely
    missing, copy the whole current block of the first chain candidate that
    was complete in the availability table computed on the original row. -/
def imputeBandStep (orig cur : SchoolRow) (t : Band) : SchoolRow :=
  if allFieldsMissing (getBand cur t) then
    match (fallbackChain t).find? (fun c => allFieldsPresent (getBand orig c)) with
    | some c => setBand cur t (getBand cur c)
    | none => cur
  else
    cur

/-- impute_missing_school_features on one row. -/
def imputeMissingSchoolFeatures (r : SchoolRow) : SchoolRow :=
  imputeTargets.foldl (fun cur t => imputeBandStep r cur t) r

/-- A fully observed four-field block. -/
def completeBlock : Block4 := Block4.mk (some 1) (some 2) (some 3) (some 4)

/-- A fully missing four-field block. -/
def emptyBlock : Block4 := Block4.mk none none none none

/-- Failing input for the six-target claim: only the walking_15min block is
    missing, and every candidate of its declared chain is complete. -/
def exRowC6 : SchoolRow :=
  SchoolRow.mk completeBlock completeBlock emptyBlock
    completeBlock completeBlock completeBlock

/-! ## Geospatial feature engine: school rankings and goodness
    (add_school_rankings lines 2116-2138, calculate_school_goodness
    lines 2143-2171)

    assign_rank keeps a truthy looked-up rank (the exact/fuzzy name lookup
    is external input here), defaults unranked secondary / pri-sec schools
    to rank 101 and gives every other unranked school no rank;
    school_goodness maps a null rank to "N/A" and a rank r to
    round(1 - (log(r)/log(101) + eps), 4) with eps = 0.0001. -/

/-- Strip leading and trailing spaces, modelling str.strip(). -/
def stripSpaces (s : Str) : Str :=
  ((s.dropWhile (fun c => c = 32)).reverse.dropWhile (fun c => c = 32)).reverse

/-- assign_rank of add_school_rankings: rank truthiness first, then the
    secondary / pri-sec default of 101, else no rank. -/
def assignRank (lookup : Option ℕ) (schoolType : Str) : Option ℕ :=
  let t := lowerStr (stripSpaces schoolType)
  match lookup with
  | some r =>
    if r ≠ 0 then some r
    else if t = codes "secondary" ∨ t = codes "pri/sec" then some 101 else none
  | none =>
    if t = codes "secondary" ∨ t = codes "pri/sec" then some 101 else none

/-- eps of calculate_school_goodness. -/
noncomputable def epsGoodness : ℝ := 1 / 10000

/-- Python round(x, 4) over the reals. -/
noncomputable def round4 (x : ℝ) : ℝ := ((round (x * 10000) : ℤ) : ℝ) / 10000

/-- school_goodness of calculate_school_goodness: "N/A" (none) for a null
    rank, and round(1 - (log(rank)/log(101) + eps), 4) otherwise. -/
noncomputable def schoolGoodness (rank : Option ℕ) : Option ℝ :=
  match rank with
  | none => none
  | some r => some (round4 (1 - (Real.log r / Real.log 101 + epsGoodness)))

/-! ## Field parser: weekly rent extraction
    (extract_rental_price, preprocess.py lines 136-239)

    The source strips dollars and thousands commas, lowercases, removes
    spaces, reads the first number as the price magnitude, and searches
    (re.search semantics) for the regex
    (\\d+(?:\\.\\d+)?)+(pw|perweek|weekly|p/w|wk|p.w.|/wk|/w|/week|p.w|
    permonth|pm|calendar|monthly|calender|percalendarmonth|percalendermonth);
    the captured keyword text (dots in keywords are regex wildcards) is then
    looked up LITERALLY in frequency_mapping, weekly rows keep the
    magnitude, monthly rows divide it by 4, purely numeric strings default
    to weekly, and everything else becomes null.  The scan below mirrors
    the leftmost-match, ordered-alternation semantics: at each digit
    position the repeated number group is consumed greedily (no keyword
    starts with a digit or a dot, so regex backtracking into shorter number
    matches can never help), then the alternation is tried in order. -/

/-- Is the code point an ASCII digit? -/
def isDigitCode (c : ℕ) : Bool := 48 ≤ c && c ≤ 57

/-- Cleaning pipeline of extract_rental_price: drop dollar signs (36) and
    commas (44), lowercase, drop spaces (32). -/
def cleanPrice (s : Str) : Str :=
  (((s.filter (fun c => c ≠ 36 && c ≠ 44)).map lowerCode).filter (fun c => c ≠ 32))

/-- Value of a digit string. -/
def digitsVal (ds : Str) : ℕ := ds.foldl (fun a c => 10 * a + (c - 48)) 0

/-- The optional fractional continuation of a number token: a dot (46)
    followed by a nonempty digit run; otherwise zero. -/
def fracAfter : Str → ℚ
  | [] => 0
  | r0 :: r2 =>
    if r0 = 46 then
      if r2.takeWhile (fun c => isDigitCode c) ≠ [] then
        (digitsVal (r2.takeWhile (fun c => isDigitCode c)) : ℚ)
          / 10 ^ (r2.takeWhile (fun c => isDigitCode c)).length
      else 0
    else 0

/-- Parse the number token starting at a digit: maximal digit run with an
    optional fractional part, as an exact rational. -/
def parseNumAt (s : Str) : ℚ :=
  (digitsVal (s.takeWhile (fun c => isDigitCode c)) : ℚ) +
    fracAfter (s.dropWhile (fun c => isDigitCode c))

/-- First match of (\\d+(?:\\.\\d+)?): the price magnitude. -/
def firstNumber : Str → Option ℚ
  | [] => none
  | c :: rest =>
    if isDigitCode c then some (parseNumAt (c :: rest)) else firstNumber rest

/-- One token of a keyword pattern: a literal code point, or the regex
    wildcard that a dot inside a keyword denotes. -/
inductive KTok
  | lit (c : ℕ)
  | any
  deriving DecidableEq, Repr

/-- Compile a keyword to its pattern (dots become wildcards). -/
def kpat (s : String) : List KTok :=
  (codes s).map (fun c => if c = 46 then KTok.any else KTok.lit c)

/-- The frequency keyword alternation, in the source's order. -/
def freqKeywordPats : List (List KTok) :=
  [kpat "pw", kpat "perweek", kpat "weekly", kpat "p/w", kpat "wk",
   kpat "p.w.", kpat "/wk", kpat "/w", kpat "/week", kpat "p.w",
   kpat "permonth", kpat "pm", kpat "calendar", kpat "monthly",
   kpat "calender", kpat "percalendarmonth", kpat "percalendermonth"]

/-- Match a pattern against a prefix of the string, returning the matched
    text. -/
def matchPat : List KTok → Str → Option Str
  | [], _ => some []
  | _ :: _, [] => none
  | KTok.lit c :: p, x :: s =>
    if x = c then (matchPat p s).map (fun t => x :: t) else none
  | KTok.any :: p, x :: s => (matchPat p s).map (fun t => x :: t)

/-- Ordered alternation: the first pattern that matches wins. -/
def firstMatch : List (List KTok) → Str → Option Str
  | [], _ => none
  | p :: ps, s =>
    match matchPat p s with
    | some t => some t
    | none => firstMatch ps s

/-- Greedy continuation of the repeated number group past the first digit
    run: a further ".run" is absorbed while the run is nonempty and the
    previous run may legally become interior (the first run always may, a
    later run needs at least two digits to be split between iterations of
    the group). -/
def munchRestAux : ℕ → ℕ → Bool → Str → Str
  | 0, _, _, rest => rest
  | _ + 1, _, _, [] => []
  | fuel + 1, lastLen, isFirst, r0 :: r2 =>
    if r0 = 46 then
      if (r2.takeWhile (fun c => isDigitCode c)) ≠ [] ∧ (isFirst ∨ 2 ≤ lastLen) then
        munchRestAux fuel (r2.takeWhile (fun c => isDigitCode c)).length false
          (r2.dropWhile (fun c => isDigitCode c))
      else
        r0 :: r2
    else
      r0 :: r2

/-- Entry point of the greedy continuation; the fuel is one more than the
    string length and every recursive call consumes at least one character,
    so the fuel is never exhausted. -/
def munchRest (lastLen : ℕ) (isFirst : Bool) (rest : Str) : Str :=
  munchRestAux (rest.length + 1) lastLen isFirst rest

/-- Leftmost search for a number immediately followed by a frequency
    keyword; returns the keyword text the regex captures. -/
def freqCapture : Str → Option Str
  | [] => none
  | c :: rest =>
    if isDigitCode c then
      match firstMatch freqKeywordPats
          (munchRest ((c :: rest).takeWhile (fun x => isDigitCode x)).length true
            ((c :: rest).dropWhile (fun x => isDigitCode x))) with
      | some t => some t
      | none => freqCapture rest
    else
      freqCapture rest

/-- Billing frequency. -/
inductive Freq
  | weekly
  | monthly
  deriving DecidableEq, Repr

/-- The keys of frequency_mapping that map to weekly. -/
def weeklyKeywords : List Str :=
  [codes "pw", codes "p.w.", codes "perweek", codes "weekly", codes "p/w",
   codes "wk", codes "p.w", codes "/wk", codes "/w", codes "/week"]

/-- The keys of frequency_mapping that map to monthly (note: "pcm" itself
    is not among them). -/
def monthlyKeywords : List Str :=
  [codes "pm", codes "permonth", codes "calendar", codes "calender",
   codes "monthly", codes "percalendarmonth", codes "percalendermonth"]

/-- frequency_mapping lookup of the literally captured keyword text. -/
def lookupFreq (t : Str) : Option Freq :=
  if t ∈ weeklyKeywords then some Freq.weekly
  else if t ∈ monthlyKeywords then some Freq.monthly
  else none

/-- The purely-numeric test r"^[\\d\\.]+$". -/
def purelyNumeric (s : Str) : Bool :=
  !s.isEmpty && s.all (fun c => isDigitCode c || c = 46)

/-- Does the cleaned string contain a digit at all? -/
def hasDigit (s : Str) : Bool := s.any (fun c => isDigitCode c)

/-- The standardized billing frequency of a cleaned price string: the
    literal mapping lookup of the captured keyword, with the purely numeric
    default to weekly. -/
def priceFrequency (s : Str) : Option Freq :=
  match (freqCapture s).bind lookupFreq with
  | some f => some f
  | none => if purelyNumeric s then some Freq.weekly else none

/-- extract_rental_price on one price string: weekly rows keep the first
    number, monthly rows divide it by 4, unknown frequencies are null. -/
def extractRentalPrice (s : Str) : Option ℚ :=
  match priceFrequency (cleanPrice s) with
  | some Freq.weekly => firstNumber (cleanPrice s)
  | some Freq.monthly => (firstNumber (cleanPrice s)).map (fun v => v / 4)
  | none => none

/-! ## Field parser: structured feature strings
    (parse_property_features, preprocess.py lines 1289-1354, applied
    row-wise without any try/except by preprocess_live_listings lines
    1416-1419)

    The feature string is split on ", ,"; each slot is stripped and
    right-stripped of commas; the minus-sign glyph (code 8722) or an empty
    slot means missing; a slot containing "ha" or "m²" is treated as a
    land area (hectares are scaled by 10,000 and truncated to int); any
    other non-placeholder slot goes through int(), and a non-numeric token
    there raises — modelled as Except.error, which List.mapM propagates,
    aborting the batch. -/

/-- str.split(", ,") with an accumulator (codes 44 32 44). -/
def splitSepGo : Str → Str → List Str
  | acc, [] => [acc.reverse]
  | acc, 44 :: 32 :: 44 :: rest => acc.reverse :: splitSepGo [] rest
  | acc, c :: rest => splitSepGo (c :: acc) rest

/-- str.split(", ,"). -/
def splitSep (s : Str) : List Str := splitSepGo [] s

/-- str.rstrip(","). -/
def rstripCommas (s : Str) : Str :=
  (s.reverse.dropWhile (fun c => c = 44)).reverse

/-- str.replace(",", ""). -/
def removeCommas (s : Str) : Str := s.filter (fun c => c ≠ 44)

/-- str.replace("ha", ""): drop every (leftmost-first) occurrence of the
    two code points 104 97. -/
def removeHA : Str → Str
  | [] => []
  | 104 :: 97 :: rest => removeHA rest
  | c :: rest => c :: removeHA rest

/-- str.replace("m²", ""): drop every occurrence of the code points
    109 178. -/
def removeM2 : Str → Str
  | [] => []
  | 109 :: 178 :: rest => removeM2 rest
  | c :: rest => c :: removeM2 rest

/-- Is pat a prefix of s? -/
def isPrefixOfB : Str → Str → Bool
  | [], _ => true
  | _ :: _, [] => false
  | a :: p, b :: s => a == b && isPrefixOfB p s

/-- Python substring containment (the "in" operator). -/
def containsSub (pat : Str) : Str → Bool
  | [] => isPrefixOfB pat []
  | c :: rest => isPrefixOfB pat (c :: rest) || containsSub pat rest

/-- int() on a nonempty all-digit token. -/
def pyDigitsOnly (ds : Str) : Except Unit ℕ :=
  if ds ≠ [] ∧ ds.all (fun c => isDigitCode c) then Except.ok (digitsVal ds)
  else Except.error ()

/-- int() after stripping: optional ASCII sign then digits; anything else
    raises ValueError. -/
def pyIntCore : Str → Except Unit ℤ
  | [] => Except.error ()
  | c :: rest =>
    if c = 45 then (pyDigitsOnly rest).map (fun n => -(n : ℤ))
    else if c = 43 then (pyDigitsOnly rest).map (fun n => (n : ℤ))
    else (pyDigitsOnly (c :: rest)).map (fun n => (n : ℤ))

/-- Python int(str). -/
def pyIntStr (s : Str) : Except Unit ℤ := pyIntCore (stripSpaces s)

/-- float() on an unsigned decimal literal: digits, or digits.digits with
    at least one digit overall; exponents are outside the data's shapes. -/
def pyFloatBody (u : Str) : Except Unit ℚ :=
  if u.dropWhile (fun c => isDigitCode c) = [] then
    if u ≠ [] then Except.ok ((digitsVal u : ℚ)) else Except.error ()
  else if (u.dropWhile (fun c => isDigitCode c)).head? = some 46 then
    if (u.dropWhile (fun c => isDigitCode c)).tail.all (fun c => isDigitCode c) ∧
        (u.takeWhile (fun c => isDigitCode c) ≠ [] ∨
          (u.dropWhile (fun c => isDigitCode c)).tail ≠ []) then
      Except.ok ((digitsVal (u.takeWhile (fun c => isDigitCode c)) : ℚ) +
        (digitsVal ((u.dropWhile (fun c => isDigitCode c)).tail) : ℚ) /
          10 ^ ((u.dropWhile (fun c => isDigitCode c)).tail).length)
    else Except.error ()
  else Except.error ()

/-- float() after stripping: optional ASCII sign then the decimal body. -/
def pyFloatCore : Str → Except Unit ℚ
  | [] => Except.error ()
  | c :: rest =>
    if c = 45 then (pyFloatBody rest).map (fun q => -q)
    else if c = 43 then pyFloatBody rest
    else pyFloatBody (c :: rest)

/-- Python float(str). -/
def pyFloatStr (s : Str) : Except Unit ℚ := pyFloatCore (stripSpaces s)

/-- Python int() applied to a float: truncation toward zero. -/
def pyIntOfRat (q : ℚ) : ℤ := if 0 ≤ q then ⌊q⌋ else ⌈q⌉

/-- One plain slot (bedrooms, bathrooms, car_spaces): the placeholder
    glyph (8722) and the empty slot are missing, anything else is int()ed. -/
def parseSlot (p : Str) : Except Unit (Option ℤ) :=
  if rstripCommas (stripSpaces p) = [8722] ∨ rstripCommas (stripSpaces p) = [] then
    Except.ok none
  else
    (pyIntStr (rstripCommas (stripSpaces p))).map some

/-- The land-area extraction applied to a cleaned slot value: the "ha"
    branch converts hectares (float, × 10000, truncated), the "m²" branch
    int()s the number, and a slot with neither marker contributes none. -/
def parseLandFrom (val : Str) : Except Unit (Option ℤ) :=
  if containsSub (codes "ha") val = true then
    if stripSpaces (removeCommas (removeHA val)) ≠ [] ∧
        stripSpaces (removeCommas (removeHA val)) ≠ [8722] then
      (pyFloatStr (stripSpaces (removeCommas (removeHA val)))).map
        (fun q => some (pyIntOfRat (q * 10000)))
    else Except.ok none
  else if containsSub (codes "m²") val = true then
    if stripSpaces (removeCommas (removeM2 val)) ≠ [] ∧
        stripSpaces (removeCommas (removeM2 val)) ≠ [8722] then
      (pyIntStr (stripSpaces (removeCommas (removeM2 val)))).map some
    else Except.ok none
  else Except.ok none

/-- The first slot: a land-area marker reclassifies the whole value as
    land area (bedrooms stays missing), otherwise it is a plain slot. -/
def parseSlot0 (p : Str) : Except Unit (Option ℤ × Option ℤ) :=
  if containsSub (codes "ha") (rstripCommas (stripSpaces p)) = true ∨
      containsSub (codes "m²") (rstripCommas (stripSpaces p)) = true then
    (parseLandFrom (rstripCommas (stripSpaces p))).map (fun la => (none, la))
  else
    (parseSlot p).map (fun b => (b, none))

/-- Plain slot i of the split parts (missing slots contribute none). -/
def slotOf (parts : List Str) (i : ℕ) : Except Unit (Option ℤ) :=
  match parts.get? i with
  | none => Except.ok none
  | some p => parseSlot p

/-- The trailing land-area slot, only consulted when slot 0 supplied no
    land area. -/
def landOf (parts : List Str) (la0 : Option ℤ) : Except Unit (Option ℤ) :=
  match la0 with
  | some v => Except.ok (some v)
  | none =>
    match parts.get? 3 with
    | none => Except.ok none
    | some p => parseLandFrom (rstripCommas (stripSpaces p))

/-- parse_property_features: (bedrooms, bathrooms, car_spaces, land_area),
    or the propagated exception. -/
def parsePropertyFeatures (s : Str) :
    Except Unit (Option ℤ × Option ℤ × Option ℤ × Option ℤ) :=
  (match splitSep s |>.get? 0 with
    | none => Except.ok (none, none)
    | some p => parseSlot0 p).bind (fun bla =>
  (slotOf (splitSep s) 1).bind (fun ba =>
  (slotOf (splitSep s) 2).bind (fun c =>
  (landOf (splitSep s) bla.2).map (fun la => (bla.1, ba, c, la)))))

instance {e a : Type} [DecidableEq e] [DecidableEq a] :
    DecidableEq (Except e a) := fun x y =>
  match x, y with
  | Except.error e1, Except.error e2 =>
    if h : e1 = e2 then isTrue (by rw [h]) else
      isFalse (fun hc => h (Except.error.injEq .. ▸ hc))
  | Except.error _, Except.ok _ => isFalse (fun hc => Except.noConfusion hc)
  | Except.ok _, Except.error _ => isFalse (fun hc => Except.noConfusion hc)
  | Except.ok a1, Except.ok a2 =>
    if h : a1 = a2 then isTrue (by rw [h]) else
      isFalse (fun hc => h (Except.ok.injEq .. ▸ hc))

/-- The row-wise application of preprocess_live_listings: no try/except,
    so the first exception aborts the whole batch. -/
def parseFeatureBatch (rows : List Str) :
    Except Unit (List (Option ℤ × Option ℤ × Option ℤ × Option ℤ)) :=
  rows.mapM parsePropertyFeatures

/-- A well-formed slot string: the placeholder glyph or a nonempty digit
    string. -/
def wfSlot (s : Str) : Prop :=
  s = [8722] ∨ (s ≠ [] ∧ ∀ c ∈ s, isDigitCode c = true)

instance (s : Str) : Decidable (wfSlot s) := by
  unfold wfSlot; exact inferInstance

/-- The parsed value of a well-formed slot. -/
def slotVal (s : Str) : Option ℤ :=
  if s = [8722] then none else some ((digitsVal s : ℤ))

end RealEstate

namespace RealEstate

/-! ### Lemmas about deduplication -/

theorem dropDuplicatesByPid_subset :
    ∀ (l : List Listing), ∀ r ∈ dropDuplicatesByPid l, r ∈ l := by
  intro l
  induction l using dropDuplicatesByPid.induct with
  | case1 => intro r h; simp [dropDuplicatesByPid] at h
  | case2 a rs ih =>
    intro r h
    rw [dropDuplicatesByPid] at h
    rcases List.mem_cons.1 h with h | h
    · simp [h]
    · exact List.mem_cons.2 (Or.inr (List.mem_of_mem_filter (ih r h)))

theorem dropDuplicatesByPid_count_pos (l : List Listing) (pid : ℤ)
    (h : ∃ r ∈ l, r.property_id = pid) :
    ((dropDuplicatesByPid l).filter (fun r => r.property_id == pid)).length = 1 := by
  induction l using dropDuplicatesByPid.induct with
  | case1 => simp at h
  | case2 a rs ih =>
    rw [dropDuplicatesByPid]
    by_cases hpid : a.property_id = pid
    · rw [List.filter_cons_of_pos (by simp [hpid])]
      simp only [List.length_cons, Nat.succ_eq_add_one, Nat.add_left_eq_self]
      rw [List.length_eq_zero, List.filter_eq_nil_iff]
      intro x hx
      have hx1 := dropDuplicatesByPid_subset _ x hx
      have hx2 := List.of_mem_filter hx1
      simp only [decide_eq_true_eq] at hx2 ⊢
      rw [hpid] at hx2
      exact fun hc => hx2 (by simpa using hc)
    · rw [List.filter_cons_of_neg (by simp [hpid])]
      apply ih
      obtain ⟨r, hr, hrpid⟩ := h
      rcases List.mem_cons.1 hr with hr | hr
      · exact absurd (hr ▸ hrpid) hpid
      · refine ⟨r, List.mem_filter.2 ⟨hr, ?_⟩, hrpid⟩
        simp only [ne_eq, decide_eq_true_eq, hrpid]
        exact fun hc => hpid hc.symm

theorem dropDuplicatesByPid_max (l : List Listing)
    (hs : List.Sorted newerFirst l) :
    ∀ r ∈ dropDuplicatesByPid l, ∀ s ∈ l, s.property_id = r.property_id →
      vintageLE (vintage s) (vintage r) := by
  induction l using dropDuplicatesByPid.induct with
  | case1 => intro r h; simp [dropDuplicatesByPid] at h
  | case2 a rs ih =>
    intro r hr s hsmem hspid
    rw [dropDuplicatesByPid] at hr
    have hsorted : List.Sorted newerFirst rs := hs.of_cons
    rcases List.mem_cons.1 hr with hr | hr
    · subst hr
      rcases List.mem_cons.1 hsmem with h | h
      · subst h; unfold vintageLE; omega
      · exact (List.sorted_cons.1 hs).1 s h
    · have hrfilter : r ∈ rs.filter (fun x => x.property_id ≠ a.property_id) :=
        dropDuplicatesByPid_subset _ r hr
      have hrne : r.property_id ≠ a.property_id := by
        have := List.of_mem_filter hrfilter
        simpa using this
      rcases List.mem_cons.1 hsmem with h | h
      · subst h; exact absurd hspid.symm hrne
      · have hsf : s ∈ rs.filter (fun x => x.property_id ≠ a.property_id) := by
          refine List.mem_filter.2 ⟨h, ?_⟩
          simp only [ne_eq, decide_eq_true_eq, hspid]
          exact hrne
        exact ih (hsorted.sublist (List.filter_sublist _)) r hr s hsf hspid

/-- C2: for rows sharing a property_id, dedupListings keeps exactly one,
    and the kept one has the maximal (year, quarter) vintage in the set. -/
theorem dedup_keeps_unique_latest (rows : List Listing) (pid : ℤ)
    (h : ∃ r ∈ rows, r.property_id = pid) :
    ((dedupListings rows).filter (fun r => r.property_id == pid)).length = 1 ∧
    ∀ r ∈ dedupListings rows, r.property_id = pid →
      r ∈ rows ∧ ∀ s ∈ rows, s.property_id = pid →
        vintageLE (vintage s) (vintage r) := by
  have hperm : List.Perm (sortListings rows) rows := List.perm_insertionSort _ _
  constructor
  · apply dropDuplicatesByPid_count_pos
    obtain ⟨r, hr, hrp⟩ := h
    exact ⟨r, hperm.mem_iff.2 hr, hrp⟩
  · intro r hr hrpid
    have hrmem : r ∈ sortListings rows :=
      dropDuplicatesByPid_subset _ r hr
    refine ⟨hperm.mem_iff.1 hrmem, ?_⟩
    intro s hs hspid
    exact dropDuplicatesByPid_max (sortListings rows)
      (List.sorted_insertionSort _ _) r hr s (hperm.mem_iff.2 hs)
      (hspid.trans hrpid.symm)

/-- Witness for C2 on a concrete input: two observations of property 1,
    the kept one is the 2024 Q3 row. -/
theorem dedup_keeps_unique_latest_witness :
    (∃ r ∈ [Listing.mk 1 2024 3, Listing.mk 1 2023 1], r.property_id = 1) ∧
    ((dedupListings [Listing.mk 1 2024 3, Listing.mk 1 2023 1]).filter
      (fun r => r.property_id == 1)).length = 1 := by
  refine ⟨⟨Listing.mk 1 2024 3, by simp, rfl⟩, ?_⟩
  exact (dedup_keeps_unique_latest [Listing.mk 1 2024 3, Listing.mk 1 2023 1] 1
    ⟨Listing.mk 1 2024 3, by simp, rfl⟩).1

end RealEstate

namespace RealEstate

/-! ### Lemmas about suburb canonicalization -/

theorem lowerCode_idem (c : ℕ) : lowerCode (lowerCode c) = lowerCode c := by
  unfold lowerCode
  split_ifs with h1 h2 <;> omega

theorem lowerStr_idem (s : Str) : lowerStr (lowerStr s) = lowerStr s := by
  unfold lowerStr
  rw [List.map_map]
  exact List.map_congr_left (fun c _ => lowerCode_idem c)

theorem lookupInv_some (m : List (Str × List Str)) (v : Str) (k : Str)
    (h : lookupInv m v = some k) : ∃ vs, (k, vs) ∈ m ∧ v ∈ vs := by
  unfold lookupInv at h
  suffices H : ∀ acc : Option Str,
      (m.foldl (fun acc kv => if v ∈ kv.2 then some kv.1 else acc) acc = some k) →
      (acc = some k ∨ ∃ vs, (k, vs) ∈ m ∧ v ∈ vs) by
    rcases H none h with hc | hc
    · exact absurd hc (by simp)
    · exact hc
  clear h
  induction m with
  | nil => intro acc h; exact Or.inl h
  | cons kv rest ih =>
    intro acc h
    simp only [List.foldl_cons] at h
    rcases ih _ h with hc | hc
    · by_cases hv : v ∈ kv.2
      · simp only [hv, if_pos] at hc
        right
        refine ⟨kv.2, ?_, hv⟩
        rw [Option.some_inj] at hc
        subst hc
        exact List.mem_cons_self _ _
      · simp only [hv, if_neg, if_false] at hc
        exact Or.inl (by simpa [hv] using hc)
    · right
      obtain ⟨vs, hmem, hv⟩ := hc
      exact ⟨vs, List.mem_cons_of_mem _ hmem, hv⟩


theorem map_eq_self_iff_fixed (f : ℕ → ℕ) (l : List ℕ) :
    l.map f = l ↔ ∀ c ∈ l, f c = c := by
  induction l with
  | nil => simp
  | cons a rest ih =>
    simp only [List.map_cons, List.cons.injEq, List.mem_cons]
    constructor
    · rintro ⟨h1, h2⟩ c hc
      rcases hc with hc | hc
      · exact hc ▸ h1
      · exact ih.1 h2 c hc
    · intro h
      exact ⟨h a (Or.inl rfl), ih.2 (fun c hc => h c (Or.inr hc))⟩

theorem buildMapping_entry (suburbs localities : List Str) (k : Str) (vs : List Str)
    (h : (k, vs) ∈ buildMapping suburbs localities) :
    lowerStr k = k ∧ vs = (splitHyphen k).filter (fun p => p ≠ []) := by
  unfold buildMapping at h
  simp only [List.mem_map] at h
  obtain ⟨c, hc, hkv⟩ := h
  cases hkv
  refine ⟨?_, rfl⟩
  unfold sortStrs at hc
  rw [List.mem_insertionSort] at hc
  have hc3 := List.mem_of_mem_filter hc
  rw [List.mem_dedup] at hc3
  obtain ⟨s, _, hs⟩ := List.mem_map.1 hc3
  rw [← hs]
  exact lowerStr_idem s

theorem splitHyphen_chars (s : Str) :
    ∀ p ∈ splitHyphen s, ∀ c ∈ p, c ≠ 45 ∧ c ∈ s := by
  induction s with
  | nil => intro p hp c hc; simp [splitHyphen] at hp; subst hp; simp at hc
  | cons a rest ih =>
    intro p hp c hc
    rw [splitHyphen] at hp
    by_cases ha : a = 45
    · rw [if_pos ha] at hp
      rcases List.mem_cons.1 hp with hp | hp
      · subst hp; simp at hc
      · obtain ⟨h1, h2⟩ := ih p hp c hc
        exact ⟨h1, List.mem_cons_of_mem _ h2⟩
    · rw [if_neg ha] at hp
      rcases hsp : splitHyphen rest with _ | ⟨h0, t⟩
      · rw [hsp] at hp
        rcases List.mem_cons.1 hp with hp | hp
        · subst hp
          rcases List.mem_cons.1 hc with hc | hc
          · subst hc; exact ⟨ha, List.mem_cons_self _ _⟩
          · simp at hc
        · simp at hp
      · rw [hsp] at hp
        rcases List.mem_cons.1 hp with hp | hp
        · subst hp
          rcases List.mem_cons.1 hc with hc | hc
          · subst hc; exact ⟨ha, List.mem_cons_self _ _⟩
          · obtain ⟨h1, h2⟩ := ih h0 (hsp ▸ List.mem_cons_self _ _) c hc
            exact ⟨h1, List.mem_cons_of_mem _ h2⟩
        · obtain ⟨h1, h2⟩ := ih p (hsp ▸ List.mem_cons_of_mem _ hp) c hc
          exact ⟨h1, List.mem_cons_of_mem _ h2⟩

theorem splitHyphen_no_hyphen (s : Str) (hne : s ≠ []) (h45 : 45 ∉ s) :
    splitHyphen s = [s] := by
  induction s with
  | nil => exact absurd rfl hne
  | cons a rest ih =>
    rw [splitHyphen]
    have ha : a ≠ 45 := fun hc => h45 (hc ▸ List.mem_cons_self _ _)
    rw [if_neg ha]
    by_cases hrest : rest = []
    · subst hrest
      simp [splitHyphen]
    · rw [ih hrest (fun hc => h45 (List.mem_cons_of_mem _ hc))]

theorem mapSuburbName_of_some (m : List (Str × List Str)) (s k : Str)
    (h : lookupInv m (lowerStr s) = some k) : mapSuburbName m s = k := by
  unfold mapSuburbName
  rw [h]

theorem mapSuburbName_of_none (m : List (Str × List Str)) (s : Str)
    (h : lookupInv m (lowerStr s) = none) : mapSuburbName m s = lowerStr s := by
  unfold mapSuburbName
  rw [h]

theorem lookupInv_ne_none (m : List (Str × List Str)) (v : Str)
    (h : ∃ kv ∈ m, v ∈ kv.2) : lookupInv m v ≠ none := by
  unfold lookupInv
  suffices H : ∀ (l : List (Str × List Str)) (acc : Option Str),
      (∃ kv ∈ l, v ∈ kv.2) ∨ acc ≠ none →
      l.foldl (fun acc kv => if v ∈ kv.2 then some kv.1 else acc) acc ≠ none by
    exact H m none (Or.inl h)
  intro l
  induction l with
  | nil =>
    intro acc hacc
    rcases hacc with hacc | hacc
    · simp at hacc
    · simpa using hacc
  | cons kv rest ih =>
    intro acc hacc
    simp only [List.foldl_cons]
    rcases hacc with hacc | hacc
    · obtain ⟨kv2, hkv2, hvkv2⟩ := hacc
      rcases List.mem_cons.1 hkv2 with he | he
      · subst he
        exact ih _ (Or.inr (by simp [hvkv2]))
      · exact ih _ (Or.inl ⟨kv2, he, hvkv2⟩)
    · apply ih
      right
      by_cases hvv : v ∈ kv.2 <;> simp [hvv, hacc]

/-- C10: canonicalizing a variant present in the mapping returns its
    canonical combo name regardless of input casing; canonicalizing an
    unmapped name returns its lowercase form unchanged; and the
    canonicalization map built by build_mapping is idempotent. -/
theorem map_suburb_roundtrip (suburbs localities : List Str)
    (m : List (Str × List Str)) (hm : m = buildMapping suburbs localities) :
    (∀ v k vs, (k, vs) ∈ m → v ∈ vs →
      ∃ k2 vs2, lookupInv m v = some k2 ∧ (k2, vs2) ∈ m ∧ v ∈ vs2 ∧
        ∀ s : Str, lowerStr s = v → mapSuburbName m s = k2) ∧
    (∀ s : Str, lookupInv m (lowerStr s) = none → mapSuburbName m s = lowerStr s) ∧
    (∀ s : Str, mapSuburbName m (mapSuburbName m s) = mapSuburbName m s) := by
  have entry : ∀ k vs, (k, vs) ∈ m →
      lowerStr k = k ∧ vs = (splitHyphen k).filter (fun p => p ≠ []) :=
    fun k vs h => buildMapping_entry suburbs localities k vs (hm ▸ h)
  refine ⟨?_, fun s h => mapSuburbName_of_none m s h, ?_⟩
  · intro v k vs hkvs hv
    have hval : lookupInv m v ≠ none := lookupInv_ne_none m v ⟨(k, vs), hkvs, hv⟩
    rcases hk2 : lookupInv m v with _ | k2
    · exact absurd hk2 hval
    · obtain ⟨vs2, hmem2, hv2⟩ := lookupInv_some m v k2 hk2
      exact ⟨k2, vs2, rfl, hmem2, hv2, fun s hs =>
        mapSuburbName_of_some m s k2 (by rw [hs]; exact hk2)⟩
  · intro s
    rcases hks : lookupInv m (lowerStr s) with _ | k
    · -- miss: the output is the lowercased input, already a fixed point
      rw [mapSuburbName_of_none m s hks]
      rw [mapSuburbName_of_none m (lowerStr s) (by rw [lowerStr_idem]; exact hks)]
      exact lowerStr_idem s
    · -- hit: the output is a combo key of the mapping
      rw [mapSuburbName_of_some m s k hks]
      obtain ⟨vs, hkm, hvm⟩ := lookupInv_some m (lowerStr s) k hks
      obtain ⟨hklow, hkvs⟩ := entry k vs hkm
      rcases hky : lookupInv m (lowerStr k) with _ | k2
      · rw [mapSuburbName_of_none m k hky, hklow]
      · -- k is itself a variant: it must be hyphen-free, so its only part
        -- is k itself, forcing the second lookup to land on k again
        rw [hklow] at hky
        obtain ⟨vs2, hmem2, hv2⟩ := lookupInv_some m k k2 hky
        obtain ⟨_, hkvs2⟩ := entry k2 vs2 hmem2
        rw [hkvs2] at hv2
        have hchars := splitHyphen_chars k2 k (List.mem_of_mem_filter hv2)
        have hhyph : (45 : ℕ) ∉ k := fun hc => (hchars 45 hc).1 rfl
        have hkne : k ≠ [] := by
          intro hc
          subst hc
          rw [hkvs] at hvm
          simp [splitHyphen] at hvm
        have hsplit : splitHyphen k = [k] := splitHyphen_no_hyphen k hkne hhyph
        rw [hkvs, hsplit] at hvm
        have hvk : lowerStr s = k := by
          have := (List.mem_filter.1 hvm).1
          simpa using this
        -- lowerStr s = k, so the second lookup repeats the first
        rw [mapSuburbName_of_some m k k2 (by rw [hklow]; exact hky)]
        rw [hvk] at hks
        rw [hks] at hky
        exact (Option.some_inj.1 hky).symm

/-- Witness for C10: the mapping built from panel suburb "Ascot Vale-Essendon"
    against localities {ascot vale, essendon} passes "BRUNSWICK" through as
    "brunswick", and canonicalization of "Ascot VALE" is idempotent. -/
theorem map_suburb_roundtrip_witness :
    mapSuburbName
      (buildMapping [codes "Ascot Vale-Essendon"] [codes "ascot vale", codes "essendon"])
      (codes "BRUNSWICK") = codes "brunswick" ∧
    mapSuburbName
      (buildMapping [codes "Ascot Vale-Essendon"] [codes "ascot vale", codes "essendon"])
      (mapSuburbName
        (buildMapping [codes "Ascot Vale-Essendon"] [codes "ascot vale", codes "essendon"])
        (codes "Ascot VALE")) =
    mapSuburbName
      (buildMapping [codes "Ascot Vale-Essendon"] [codes "ascot vale", codes "essendon"])
      (codes "Ascot VALE") := by
  constructor
  · rw [(map_suburb_roundtrip [codes "Ascot Vale-Essendon"]
      [codes "ascot vale", codes "essendon"] _ rfl).2.1 (codes "BRUNSWICK") (by decide)]
    decide
  · exact (map_suburb_roundtrip [codes "Ascot Vale-Essendon"]
      [codes "ascot vale", codes "essendon"] _ rfl).2.2 (codes "Ascot VALE")

end RealEstate

namespace RealEstate

/-! ### Evaluation of grouped-mode imputation at the failing input -/

/-- C5: impute_by_property_type_mode leaves the null bedroom count of the
    all-null house category unfilled, even though a global mode (2) exists;
    the claimed fall back to the global mode does not happen. -/
theorem impute_mode_no_global_fallback :
    imputeByPropertyTypeMode exRowsC5 = [none, some 2, some 2, some 3] ∧
    overallMode exRowsC5 = some 2 := by
  constructor <;> decide

end RealEstate

namespace RealEstate

/-! ### Lemmas about nearest-point imputation -/

theorem getD_get? {α : Type} (l : List α) (c : ℕ) (d : α) :
    l.getD c d = (l.get? c).getD d := rfl

theorem listGetD_set_ne {α : Type} (d : α) :
    ∀ (l : List α) (m n : ℕ) (a : α), m ≠ n → (l.set m a).getD n d = l.getD n d := by
  intro l
  induction l with
  | nil => intro m n a h; rfl
  | cons x xs ih =>
    intro m n a h
    cases m with
    | zero =>
      cases n with
      | zero => exact absurd rfl h
      | succ n2 => rfl
    | succ m2 =>
      cases n with
      | zero => rfl
      | succ n2 => exact ih m2 n2 a (fun hc => h (by rw [hc]))

theorem listGetD_set_self {α : Type} (d : α) :
    ∀ (l : List α) (m : ℕ) (a : α), m < l.length → (l.set m a).getD m d = a := by
  intro l
  induction l with
  | nil => intro m a h; simp at h
  | cons x xs ih =>
    intro m a h
    cases m with
    | zero => rfl
    | succ m2 => exact ih m2 a (by simpa using h)

theorem getD_some_lt (l : List (Option ℤ)) (c : ℕ) (v : ℤ)
    (h : l.getD c none = some v) : c < l.length := by
  by_contra hc
  rw [List.getD_eq_default l none (by omega)] at h
  exact Option.noConfusion h

theorem fillRow_getD (a b : List (Option ℤ)) (c : ℕ) :
    (fillRow a b).getD c none =
      if c < a.length then
        match a.getD c none with
        | some v => some v
        | none => b.getD c none
      else none := by
  unfold fillRow
  by_cases h : c < a.length
  · rw [if_pos h, getD_get?, List.get?_map, List.get?_range h]
    rfl
  · rw [if_neg h]
    apply List.getD_eq_default
    simpa using (by omega : a.length ≤ c)

theorem rowVals_copyRow_ne (res : Cells) (idx src i : ℕ) (h : i ≠ idx) :
    rowVals (copyRow res idx src) i = rowVals res i := by
  unfold copyRow rowVals
  exact listGetD_set_ne [] res idx i _ (fun hc => h hc.symm)

theorem getCell_copyRow_self_of_some (res : Cells) (idx src c : ℕ) (v : ℤ)
    (h : getCell res idx c = some v) :
    getCell (copyRow res idx src) idx c = some v := by
  by_cases hlen : idx < res.length
  · unfold getCell rowVals at h
    unfold getCell copyRow rowVals
    rw [listGetD_set_self [] res idx _ hlen, fillRow_getD]
    have hc := getD_some_lt _ c v h
    rw [if_pos hc, h]
  · unfold copyRow
    rw [List.set_eq_of_length_le (by omega)]
    exact h

theorem getCell_copyRow_self_cases (res : Cells) (idx src c : ℕ) (v : ℤ)
    (h : getCell (copyRow res idx src) idx c = some v) :
    getCell res idx c = some v ∨
      (getCell res idx c = none ∧ getCell res src c = some v) := by
  by_cases hlen : idx < res.length
  · unfold getCell copyRow rowVals at h
    unfold getCell rowVals
    rw [listGetD_set_self [] res idx _ hlen, fillRow_getD] at h
    by_cases hc : c < (res.getD idx []).length
    · rw [if_pos hc] at h
      rcases ha : (res.getD idx []).getD c none with _ | w
      · rw [ha] at h
        exact Or.inr ⟨rfl, h⟩
      · rw [ha] at h
        exact Or.inl h
    · rw [if_neg hc] at h
      exact Option.noConfusion h
  · unfold copyRow at h
    rw [List.set_eq_of_length_le (by omega)] at h
    exact Or.inl h

theorem argminFirst_mem (f : ℕ → ℤ) :
    ∀ (l : List ℕ) (k : ℕ), argminFirst f l = some k → k ∈ l := by
  intro l
  induction l with
  | nil => intro k h; exact Option.noConfusion h
  | cons j rest ih =>
    intro k h
    rw [argminFirst] at h
    rcases ha : argminFirst f rest with _ | k2
    · rw [ha] at h
      exact List.mem_cons.2 (Or.inl (Option.some_inj.1 h).symm)
    · rw [ha] at h
      dsimp only at h
      by_cases hle : f j ≤ f k2
      · rw [if_pos hle] at h
        exact List.mem_cons.2 (Or.inl (Option.some_inj.1 h).symm)
      · rw [if_neg hle] at h
        exact List.mem_cons.2 (Or.inr (ih k (by rw [ha, h])))

theorem argminFirst_isSome (f : ℕ → ℤ) :
    ∀ l : List ℕ, l ≠ [] → ∃ k, argminFirst f l = some k := by
  intro l
  induction l with
  | nil => intro h; exact absurd rfl h
  | cons j rest ih =>
    intro _
    rw [argminFirst]
    rcases ha : argminFirst f rest with _ | k2
    · exact ⟨j, rfl⟩
    · by_cases hle : f j ≤ f k2
      · exact ⟨j, by dsimp only; rw [if_pos hle]⟩
      · exact ⟨k2, by dsimp only; rw [if_neg hle]⟩

theorem imputeStep_prov (df : List NRow) (res : Cells) (idx : ℕ)
    (h1 : ∀ i c v, getCell res i c = some v → ∃ j, getCell (origRes df) j c = some v)
    (h2 : ∀ i c v, getCell (origRes df) i c = some v → getCell res i c = some v) :
    (∀ i c v, getCell (imputeStep df res idx) i c = some v →
      ∃ j, getCell (origRes df) j c = some v) ∧
    (∀ i c v, getCell (origRes df) i c = some v →
      getCell (imputeStep df res idx) i c = some v) := by
  unfold imputeStep
  by_cases hn : anyNone (rowVals res idx) = true
  · rw [if_pos hn]
    rcases hcs : chosenSource df res idx with _ | src
    · exact ⟨h1, h2⟩
    · constructor
      · intro i c v h
        by_cases hi : i = idx
        · subst hi
          rcases getCell_copyRow_self_cases res i src c v h with hcase | ⟨_, hcase⟩
          · exact h1 i c v hcase
          · exact h1 src c v hcase
        · have heq : getCell (copyRow res idx src) i c = getCell res i c := by
            unfold getCell
            rw [rowVals_copyRow_ne res idx src i hi]
          rw [heq] at h
          exact h1 i c v h
      · intro i c v h
        by_cases hi : i = idx
        · subst hi
          exact getCell_copyRow_self_of_some res i src c v (h2 i c v h)
        · have heq : getCell (copyRow res idx src) i c = getCell res i c := by
            unfold getCell
            rw [rowVals_copyRow_ne res idx src i hi]
          rw [heq]
          exact h2 i c v h
  · rw [if_neg hn]
    exact ⟨h1, h2⟩

theorem foldl_prov (df : List NRow) :
    ∀ (idxs : List ℕ) (res : Cells),
    (∀ i c v, getCell res i c = some v → ∃ j, getCell (origRes df) j c = some v) →
    (∀ i c v, getCell (origRes df) i c = some v → getCell res i c = some v) →
    ∀ i c v, getCell (idxs.foldl (imputeStep df) res) i c = some v →
      ∃ j, getCell (origRes df) j c = some v := by
  intro idxs
  induction idxs with
  | nil => intro res h1 _ i c v h; exact h1 i c v h
  | cons idx rest ih =>
    intro res h1 h2
    simp only [List.foldl_cons]
    obtain ⟨p1, p2⟩ := imputeStep_prov df res idx h1 h2
    exact ih _ p1 p2

/-- C3: a cell filled by impute_by_nearest_point always equals some other
    row's original observed value in that column, and whenever same-suburb
    candidates with all target columns non-null exist, the copy source is
    chosen among them (never a global candidate). -/
theorem impute_nearest_provenance_and_preference :
    (∀ (df : List NRow) (i c : ℕ) (v : ℤ),
      getCell (imputeByNearestPoint df) i c = some v →
      getCell (origRes df) i c = none →
      ∃ j, j ≠ i ∧ getCell (origRes df) j c = some v) ∧
    (∀ (df : List NRow) (res : Cells) (idx : ℕ),
      sameCands df res idx ≠ [] →
      ∃ j, chosenSource df res idx = some j ∧ j ∈ sameCands df res idx ∧
        suburbAt df j = suburbAt df idx ∧ j ≠ idx) := by
  constructor
  · intro df i c v h hnone
    obtain ⟨j, hj⟩ := foldl_prov df (nullIndices df) (origRes df)
      (fun i c v h => ⟨i, h⟩) (fun _ _ _ h => h) i c v h
    refine ⟨j, ?_, hj⟩
    intro hc
    subst hc
    rw [hnone] at hj
    exact Option.noConfusion hj
  · intro df res idx hne
    unfold chosenSource
    rw [if_pos hne]
    obtain ⟨j, hj⟩ := argminFirst_isSome (fun j => dist2At df idx j) _ hne
    have hmem := argminFirst_mem _ _ _ hj
    have hmem2 := hmem
    unfold sameCands at hmem2
    have hprop := (List.mem_filter.1 hmem2).2
    simp only [Bool.and_eq_true, decide_eq_true_eq] at hprop
    exact ⟨j, hj, hmem, hprop.1.2, hprop.1.1⟩

/-- Witness for C3 at a concrete table: row 0's null cell is filled with 4,
    the value observed by its same-suburb neighbour row 1, which is also the
    chosen source. -/
theorem impute_nearest_provenance_witness :
    (getCell (imputeByNearestPoint exDfC3) 0 0 = some 4 ∧
      ∃ j, j ≠ 0 ∧ getCell (origRes exDfC3) j 0 = some 4) ∧
    ∃ j, chosenSource exDfC3 (origRes exDfC3) 0 = some j ∧
      j ∈ sameCands exDfC3 (origRes exDfC3) 0 ∧
      suburbAt exDfC3 j = suburbAt exDfC3 0 ∧ j ≠ 0 := by
  constructor
  · refine ⟨by decide, ?_⟩
    exact impute_nearest_provenance_and_preference.1 exDfC3 0 0 4
      (by decide) (by decide)
  · exact impute_nearest_provenance_and_preference.2 exDfC3 (origRes exDfC3) 0
      (by decide)

/-- C4 counterexample: on exDfC4 the sequential pass gives row 1 the value
    previously imputed into row 0, while imputing row 1 against the original
    table in isolation copies from row 3 instead. -/
theorem impute_nearest_sequential_ne_isolated :
    rowVals (imputeByNearestPoint exDfC4) 1 = [some 5] ∧
    imputeRowIsolated exDfC4 1 = [some 7] ∧
    rowVals (imputeByNearestPoint exDfC4) 1 ≠ imputeRowIsolated exDfC4 1 := by
  refine ⟨by decide, by decide, by decide⟩

theorem anyNone_false_of_not_mem (df : List NRow) (i : ℕ)
    (h : i ∉ nullIndices df) : anyNone (rowVals (origRes df) i) = false := by
  by_cases hlen : i < df.length
  · by_contra hc
    apply h
    unfold nullIndices
    refine List.mem_filter.2 ⟨List.mem_range.2 hlen, ?_⟩
    simpa using hc
  · unfold rowVals
    rw [List.getD_eq_default _ _ (by unfold origRes; simpa using (by omega : df.length ≤ i))]
    rfl

theorem imputeStep_not_null (df : List NRow) (i : ℕ)
    (h : anyNone (rowVals (origRes df) i) = false) :
    imputeStep df (origRes df) i = origRes df := by
  unfold imputeStep
  rw [h]
  simp

theorem rowVals_imputeStep_ne (df : List NRow) (res : Cells) (idx i : ℕ)
    (h : i ≠ idx) : rowVals (imputeStep df res idx) i = rowVals res i := by
  unfold imputeStep
  by_cases hn : anyNone (rowVals res idx) = true
  · rw [if_pos hn]
    rcases chosenSource df res idx with _ | src
    · rfl
    · exact rowVals_copyRow_ne res idx src i h
  · rw [if_neg hn]

/-- C4 amended: when at most one row has a missing target cell, the
    sequential pass coincides with imputing every row against the original
    table in isolation; with two or more null rows it need not (see the
    counterexample), because already-imputed rows become candidates. -/
theorem impute_nearest_isolated_of_single_null (df : List NRow)
    (h : (nullIndices df).length ≤ 1) :
    ∀ i, rowVals (imputeByNearestPoint df) i = imputeRowIsolated df i := by
  intro i
  unfold imputeByNearestPoint imputeRowIsolated
  rcases hni : nullIndices df with _ | ⟨idx, rest⟩
  · simp only [List.foldl_nil]
    have hmem : i ∉ nullIndices df := by rw [hni]; simp
    rw [imputeStep_not_null df i (anyNone_false_of_not_mem df i hmem)]
  · have hrest : rest = [] := by
      rw [hni] at h
      simpa using h
    subst hrest
    simp only [List.foldl_cons, List.foldl_nil]
    by_cases hi : i = idx
    · subst hi; rfl
    · rw [rowVals_imputeStep_ne df _ idx i hi]
      have hmem : i ∉ nullIndices df := by
        rw [hni]
        simp [hi]
      rw [imputeStep_not_null df i (anyNone_false_of_not_mem df i hmem)]

/-- Witness for the amended C4 on a single-null-row table. -/
theorem impute_nearest_isolated_of_single_null_witness :
    (nullIndices exDfC3).length ≤ 1 ∧
    rowVals (imputeByNearestPoint exDfC3) 0 = imputeRowIsolated exDfC3 0 := by
  refine ⟨by decide, ?_⟩
  exact impute_nearest_isolated_of_single_null exDfC3 (by decide) 0

end RealEstate

namespace RealEstate

/-! ### Evaluation of the school-feature fallback at the failing input -/

/-- C6: a row whose walking_15min block is entirely missing is returned
    unchanged although driving_5min, the first candidate of walking_15min's
    declared fallback chain, is complete: the source's target loop skips
    walking_15min, so only five of the six bands are ever imputed. -/
theorem impute_school_features_skips_walking_15min :
    imputeMissingSchoolFeatures exRowC6 = exRowC6 ∧
    allFieldsMissing (getBand exRowC6 Band.w15) = true ∧
    allFieldsPresent (getBand exRowC6 Band.d5) = true ∧
    (fallbackChain Band.w15).find?
      (fun c => allFieldsPresent (getBand exRowC6 c)) = some Band.d5 := by
  refine ⟨by decide, by decide, by decide, by decide⟩

end RealEstate

namespace RealEstate

/-! ### School goodness: sign of eps and attained range -/

theorem log101_pos : (0:ℝ) < Real.log 101 := Real.log_pos (by norm_num)

/-- C7 counterexample: at the default rank 101 the code yields
    goodness -0.0001, which is neither in (0, 1] nor equal to the claimed
    1 - log(101)/log(101) + eps = +0.0001. -/
theorem school_goodness_claim_fails_at_rank101 :
    schoolGoodness (some 101) = some (-(1/10000) : ℝ) ∧
    ¬(0 < (-(1/10000) : ℝ)) ∧
    (-(1/10000) : ℝ) ≠ 1 - Real.log 101 / Real.log 101 + 1/10000 := by
  have hdiv : Real.log ((101:ℕ):ℝ) / Real.log 101 = 1 := by
    rw [show ((101:ℕ):ℝ) = (101:ℝ) by norm_num]
    exact div_self (ne_of_gt log101_pos)
  refine ⟨?_, by norm_num, ?_⟩
  · unfold schoolGoodness round4 epsGoodness
    dsimp only
    rw [hdiv]
    have harg : ((1:ℝ) - (1 + 1/10000)) * 10000 = ((-1 : ℤ) : ℝ) := by norm_num
    rw [harg, round_intCast]
    norm_num
  · rw [show Real.log 101 / Real.log 101 = 1 from div_self (ne_of_gt log101_pos)]
    norm_num

theorem round4_bounds (y : ℝ) (hlo : -(1/10000) ≤ y) (hhi : y ≤ 1 - 1/10000) :
    -(1/10000) ≤ round4 y ∧ round4 y ≤ 9999/10000 := by
  have h1 : ((-1 : ℤ) : ℝ) ≤ y * 10000 := by push_cast; linarith
  have h2 : y * 10000 ≤ ((9999 : ℤ) : ℝ) := by push_cast; linarith
  have hr1 : (-1 : ℤ) ≤ round (y * 10000) := by
    calc (-1 : ℤ) = round (((-1 : ℤ) : ℝ)) := (round_intCast (-1)).symm
      _ ≤ round (y * 10000) := by
          rw [round_eq, round_eq]
          exact Int.floor_le_floor (by linarith)
  have hr2 : round (y * 10000) ≤ (9999 : ℤ) := by
    calc round (y * 10000) ≤ round (((9999 : ℤ) : ℝ)) := by
          rw [round_eq, round_eq]
          exact Int.floor_le_floor (by linarith)
      _ = 9999 := round_intCast 9999
  unfold round4
  constructor
  · have : ((-1 : ℤ) : ℝ) ≤ ((round (y * 10000) : ℤ) : ℝ) := by exact_mod_cast hr1
    push_cast at this
    linarith
  · have : ((round (y * 10000) : ℤ) : ℝ) ≤ ((9999 : ℤ) : ℝ) := by exact_mod_cast hr2
    push_cast at this
    linarith

/-- C7 amended: the code computes goodness = round(1 - (log r / log 101 +
    eps), 4); for every rank r in [1, 101] the numeric value lies in
    [-0.0001, 0.9999] (not in (0, 1]); a missing lookup still defaults
    secondary and pri/sec schools to rank 101 and leaves every other
    school type unranked. -/
theorem school_goodness_formula_and_range (r : ℕ) (h1 : 1 ≤ r) (h2 : r ≤ 101) :
    (∃ g : ℝ, schoolGoodness (some r) = some g ∧
      g = round4 (1 - (Real.log r / Real.log 101 + epsGoodness)) ∧
      -(1/10000) ≤ g ∧ g ≤ 9999/10000) ∧
    assignRank none (codes "secondary") = some 101 ∧
    assignRank none (codes "Pri/Sec ") = some 101 ∧
    assignRank none (codes "primary") = none := by
  refine ⟨?_, by decide, by decide, by decide⟩
  have hq1 : Real.log r / Real.log 101 ≤ 1 := by
    rw [div_le_one log101_pos]
    apply Real.log_le_log (by exact_mod_cast h1)
    exact_mod_cast h2
  have hq0 : 0 ≤ Real.log r / Real.log 101 :=
    div_nonneg (Real.log_nonneg (by exact_mod_cast h1)) (le_of_lt log101_pos)
  obtain ⟨hb1, hb2⟩ := round4_bounds (1 - (Real.log r / Real.log 101 + epsGoodness))
    (by unfold epsGoodness; linarith) (by unfold epsGoodness; linarith)
  exact ⟨round4 (1 - (Real.log r / Real.log 101 + epsGoodness)), rfl, rfl, hb1, hb2⟩

/-- Witness for the amended C7 at the boundary rank 101. -/
theorem school_goodness_formula_and_range_witness :
    ∃ g : ℝ, schoolGoodness (some 101) = some g ∧
      -(1/10000) ≤ g ∧ g ≤ 9999/10000 := by
  obtain ⟨⟨g, hg1, _, hg3, hg4⟩, _, _, _⟩ :=
    school_goodness_formula_and_range 101 (by decide) (by decide)
  exact ⟨g, hg1, hg3, hg4⟩

end RealEstate

namespace RealEstate

/-! ### Lemmas about rental price extraction -/

theorem takeWhile_append_all (p : ℕ → Bool) (l1 l2 : Str)
    (h : ∀ c ∈ l1, p c = true) :
    (l1 ++ l2).takeWhile p = l1 ++ l2.takeWhile p := by
  induction l1 with
  | nil => rfl
  | cons a l1 ih =>
    rw [List.cons_append, List.takeWhile_cons, h a (List.mem_cons_self _ _)]
    rw [ih (fun c hc => h c (List.mem_cons_of_mem _ hc))]
    rfl

theorem dropWhile_append_all (p : ℕ → Bool) (l1 l2 : Str)
    (h : ∀ c ∈ l1, p c = true) :
    (l1 ++ l2).dropWhile p = l2.dropWhile p := by
  induction l1 with
  | nil => rfl
  | cons a l1 ih =>
    rw [List.cons_append, List.dropWhile_cons, h a (List.mem_cons_self _ _)]
    exact ih (fun c hc => h c (List.mem_cons_of_mem _ hc))

theorem takeWhile_head_false (p : ℕ → Bool) (l : Str)
    (h : ∀ c, l.head? = some c → p c = false) :
    l.takeWhile p = [] ∧ l.dropWhile p = l := by
  cases l with
  | nil => exact ⟨rfl, rfl⟩
  | cons a l =>
    have ha := h a rfl
    rw [List.takeWhile_cons, List.dropWhile_cons, ha]
    exact ⟨rfl, rfl⟩

theorem digit_cleanOK (c : ℕ) (h : isDigitCode c = true) :
    c ≠ 36 ∧ c ≠ 44 ∧ c ≠ 32 ∧ lowerCode c = c := by
  unfold isDigitCode at h
  simp only [Bool.and_eq_true, decide_eq_true_eq] at h
  refine ⟨by omega, by omega, by omega, ?_⟩
  unfold lowerCode
  rw [if_neg (by omega)]

theorem cleanPrice_fixed (s : Str)
    (h : ∀ c ∈ s, c ≠ 36 ∧ c ≠ 44 ∧ c ≠ 32 ∧ lowerCode c = c) :
    cleanPrice s = s := by
  unfold cleanPrice
  have h1 : s.filter (fun c => c ≠ 36 && c ≠ 44) = s := by
    rw [List.filter_eq_self]
    intro a ha
    simp only [Bool.and_eq_true, decide_eq_true_eq]
    exact ⟨(h a ha).1, (h a ha).2.1⟩
  rw [h1]
  have h2 : s.map lowerCode = s := by
    rw [map_eq_self_iff_fixed]
    exact fun c hc => (h c hc).2.2.2
  rw [h2]
  rw [List.filter_eq_self]
  intro a ha
  simp only [decide_eq_true_eq]
  exact (h a ha).2.2.1

theorem munchRest_no_dot (lastLen : ℕ) (isFirst : Bool) (rest : Str)
    (h : ∀ c, rest.head? = some c → c ≠ 46) :
    munchRest lastLen isFirst rest = rest := by
  cases rest with
  | nil => rfl
  | cons r0 rrest =>
    unfold munchRest
    rw [List.length_cons, munchRestAux, if_neg (h r0 rfl)]

theorem fracAfter_no_dot (rest : Str) (h : ∀ c, rest.head? = some c → c ≠ 46) :
    fracAfter rest = 0 := by
  cases rest with
  | nil => rfl
  | cons r0 rrest =>
    rw [fracAfter, if_neg (h r0 rfl)]

theorem parseNumAt_digits (ds rest : Str) (hd : ∀ c ∈ ds, isDigitCode c = true)
    (hrest : ∀ c, rest.head? = some c → isDigitCode c = false ∧ c ≠ 46) :
    parseNumAt (ds ++ rest) = (digitsVal ds : ℚ) := by
  unfold parseNumAt
  obtain ⟨ht, hdr⟩ := takeWhile_head_false (fun c => isDigitCode c) rest
    (fun c hc => (hrest c hc).1)
  rw [takeWhile_append_all _ _ _ hd, dropWhile_append_all _ _ _ hd, ht, hdr,
    List.append_nil, fracAfter_no_dot rest (fun c hc => (hrest c hc).2), add_zero]

theorem firstNumber_digits_append (ds rest : Str) (hne : ds ≠ [])
    (hd : ∀ c ∈ ds, isDigitCode c = true)
    (hrest : ∀ c, rest.head? = some c → isDigitCode c = false ∧ c ≠ 46) :
    firstNumber (ds ++ rest) = some ((digitsVal ds : ℚ)) := by
  cases ds with
  | nil => exact absurd rfl hne
  | cons d ds' =>
    rw [List.cons_append, firstNumber, if_pos (hd d (List.mem_cons_self _ _))]
    rw [← List.cons_append, parseNumAt_digits _ rest hd hrest]

theorem freqCapture_digits_append (ds rest : Str) (hne : ds ≠ [])
    (hd : ∀ c ∈ ds, isDigitCode c = true)
    (hrest : ∀ c, rest.head? = some c → isDigitCode c = false ∧ c ≠ 46) :
    freqCapture (ds ++ rest) =
      match firstMatch freqKeywordPats rest with
      | some t => some t
      | none => freqCapture rest := by
  induction ds with
  | nil => exact absurd rfl hne
  | cons d ds' ih =>
    rw [List.cons_append, freqCapture, if_pos (hd d (List.mem_cons_self _ _))]
    obtain ⟨ht, hdr⟩ := takeWhile_head_false (fun c => isDigitCode c) rest
      (fun c hc => (hrest c hc).1)
    have hd' : ∀ c ∈ ds', isDigitCode c = true :=
      fun c hc => hd c (List.mem_cons_of_mem _ hc)
    rw [show d :: (ds' ++ rest) = (d :: ds') ++ rest from rfl]
    rw [takeWhile_append_all _ _ _ hd, dropWhile_append_all _ _ _ hd, ht, hdr]
    rw [munchRest_no_dot _ _ rest (fun c hc => (hrest c hc).2)]
    rcases hm : firstMatch freqKeywordPats rest with _ | t
    · rcases hds' : ds' with _ | ⟨e, es⟩
      · rfl
      · subst hds'
        have h2 := ih (by simp) hd'
        rw [hm] at h2
        exact h2
    · rfl

theorem freqCapture_some_hasDigit (s : Str) (t : Str)
    (h : freqCapture s = some t) : hasDigit s = true := by
  induction s with
  | nil => exact Option.noConfusion h
  | cons c rest ih =>
    rw [freqCapture] at h
    by_cases hc : isDigitCode c = true
    · unfold hasDigit
      simp [hc]
    · rw [if_neg hc] at h
      have h2 := ih h
      unfold hasDigit at h2 ⊢
      rw [List.any_cons, h2]
      simp

theorem firstNumber_none_iff (s : Str) :
    firstNumber s = none ↔ hasDigit s = false := by
  induction s with
  | nil => simp [firstNumber, hasDigit]
  | cons c rest ih =>
    rw [firstNumber]
    by_cases hc : isDigitCode c = true
    · rw [if_pos hc]
      unfold hasDigit
      simp [hc]
    · rw [if_neg hc, ih]
      unfold hasDigit
      rw [List.any_cons]
      simp [Bool.eq_false_iff.2 hc]

theorem weekly_kw_facts : ∀ kw ∈ weeklyKeywords,
    (∀ c ∈ kw, c ≠ 36 ∧ c ≠ 44 ∧ c ≠ 32 ∧ lowerCode c = c) ∧
    (∀ c, kw.head? = some c → isDigitCode c = false ∧ c ≠ 46) ∧
    (firstMatch freqKeywordPats kw).bind lookupFreq = some Freq.weekly := by
  decide

theorem monthly_kw_facts : ∀ kw ∈ monthlyKeywords,
    (∀ c ∈ kw, c ≠ 36 ∧ c ≠ 44 ∧ c ≠ 32 ∧ lowerCode c = c) ∧
    (∀ c, kw.head? = some c → isDigitCode c = false ∧ c ≠ 46) ∧
    (firstMatch freqKeywordPats kw).bind lookupFreq = some Freq.monthly := by
  decide

end RealEstate

namespace RealEstate

/-- C1 counterexample: the price string "$1,800 pcm" has a monthly billing
    frequency, but "pcm" is in neither keyword vocabulary, so
    extract_rental_price returns null instead of 1800/4 = 450. -/
theorem extract_rental_price_pcm_null :
    extractRentalPrice (codes "$1,800 pcm") = none ∧
    codes "pcm" ∉ weeklyKeywords ∧ codes "pcm" ∉ monthlyKeywords := by
  refine ⟨by decide, by decide, by decide⟩

/-- C1 amended: a number immediately followed by a recognized weekly
    keyword yields its magnitude, by a recognized monthly keyword its
    magnitude divided by 4 (the vocabulary does not include "pcm"), a bare
    number yields itself, and the result is null exactly when no keyword
    pattern is captured into the frequency mapping and the cleaned string
    is not a digit-bearing purely numeric string. -/
theorem extract_rental_price_spec :
    (∀ ds kw : Str, ds ≠ [] → (∀ c ∈ ds, isDigitCode c = true) →
      kw ∈ weeklyKeywords →
      extractRentalPrice (ds ++ kw) = some ((digitsVal ds : ℚ))) ∧
    (∀ ds kw : Str, ds ≠ [] → (∀ c ∈ ds, isDigitCode c = true) →
      kw ∈ monthlyKeywords →
      extractRentalPrice (ds ++ kw) = some ((digitsVal ds : ℚ) / 4)) ∧
    (∀ ds : Str, ds ≠ [] → (∀ c ∈ ds, isDigitCode c = true) →
      extractRentalPrice ds = some ((digitsVal ds : ℚ))) ∧
    (∀ s : Str, extractRentalPrice s = none ↔
      ((freqCapture (cleanPrice s)).bind lookupFreq = none ∧
        ¬(purelyNumeric (cleanPrice s) = true ∧ hasDigit (cleanPrice s) = true))) := by
  have hcleanfix : ∀ ds kw : Str, (∀ c ∈ ds, isDigitCode c = true) →
      (∀ c ∈ kw, c ≠ 36 ∧ c ≠ 44 ∧ c ≠ 32 ∧ lowerCode c = c) →
      cleanPrice (ds ++ kw) = ds ++ kw := by
    intro ds kw hd hk
    apply cleanPrice_fixed
    intro c hc
    rcases List.mem_append.1 hc with hc | hc
    · exact digit_cleanOK c (hd c hc)
    · exact hk c hc
  refine ⟨?_, ?_, ?_, ?_⟩
  · -- weekly keyword
    intro ds kw hne hd hkw
    obtain ⟨hclean, hhead, hfreq⟩ := weekly_kw_facts kw hkw
    unfold extractRentalPrice priceFrequency
    rw [hcleanfix ds kw hd hclean]
    rw [freqCapture_digits_append ds kw hne hd hhead]
    rcases hfm : firstMatch freqKeywordPats kw with _ | t
    · rw [hfm] at hfreq
      exact Option.noConfusion hfreq
    · rw [hfm] at hfreq
      simp only [Option.some_bind] at hfreq
      simp only [Option.some_bind, hfreq]
      exact firstNumber_digits_append ds kw hne hd hhead
  · -- monthly keyword
    intro ds kw hne hd hkw
    obtain ⟨hclean, hhead, hfreq⟩ := monthly_kw_facts kw hkw
    unfold extractRentalPrice priceFrequency
    rw [hcleanfix ds kw hd hclean]
    rw [freqCapture_digits_append ds kw hne hd hhead]
    rcases hfm : firstMatch freqKeywordPats kw with _ | t
    · rw [hfm] at hfreq
      exact Option.noConfusion hfreq
    · rw [hfm] at hfreq
      simp only [Option.some_bind] at hfreq
      simp only [Option.some_bind, hfreq]
      rw [firstNumber_digits_append ds kw hne hd hhead]
      rfl
  · -- bare number
    intro ds hne hd
    have hclean : cleanPrice ds = ds :=
      cleanPrice_fixed ds (fun c hc => digit_cleanOK c (hd c hc))
    have hcap : freqCapture ds = none := by
      have h1 := freqCapture_digits_append ds [] hne hd
        (fun c hc => Option.noConfusion hc)
      rw [List.append_nil] at h1
      rw [h1, show firstMatch freqKeywordPats [] = none from by decide]
      rfl
    have hpn : purelyNumeric ds = true := by
      unfold purelyNumeric
      rw [Bool.and_eq_true]
      constructor
      · cases ds with
        | nil => exact absurd rfl hne
        | cons a l => rfl
      · rw [List.all_eq_true]
        intro c hc
        rw [Bool.or_eq_true]
        exact Or.inl (hd c hc)
    unfold extractRentalPrice priceFrequency
    rw [hclean, hcap]
    simp only [Option.none_bind, hpn, if_true]
    have h2 := firstNumber_digits_append ds [] hne hd
      (fun c hc => Option.noConfusion hc)
    rw [List.append_nil] at h2
    exact h2
  · -- null exactly on unrecognized frequency
    intro s
    unfold extractRentalPrice priceFrequency
    rcases h0 : (freqCapture (cleanPrice s)).bind lookupFreq with _ | f
    · by_cases hpn : purelyNumeric (cleanPrice s) = true
      · simp only [hpn, if_true]
        rw [firstNumber_none_iff]
        simp [hpn]
      · simp only [hpn, if_false]
        simp [hpn]
    · have hcap : ∃ t, freqCapture (cleanPrice s) = some t := by
        rcases hc2 : freqCapture (cleanPrice s) with _ | t
        · rw [hc2] at h0
          exact Option.noConfusion h0
        · exact ⟨t, rfl⟩
      obtain ⟨t, ht⟩ := hcap
      have hdg := freqCapture_some_hasDigit _ t ht
      have hfn : ¬(firstNumber (cleanPrice s) = none) := by
        rw [firstNumber_none_iff]
        simp [hdg]
      cases f
      · simp [hfn]
      · simp [Option.map_eq_none', hfn]

/-- Witness for the amended C1 on concrete price strings. -/
theorem extract_rental_price_spec_witness :
    extractRentalPrice (codes "450" ++ codes "pw") =
      some ((digitsVal (codes "450") : ℚ)) ∧
    extractRentalPrice (codes "1800" ++ codes "pm") =
      some ((digitsVal (codes "1800") : ℚ) / 4) ∧
    extractRentalPrice (codes "450") = some ((digitsVal (codes "450") : ℚ)) := by
  refine ⟨?_, ?_, ?_⟩
  · exact extract_rental_price_spec.1 (codes "450") (codes "pw")
      (by decide) (by decide) (by decide)
  · exact extract_rental_price_spec.2.1 (codes "1800") (codes "pm")
      (by decide) (by decide) (by decide)
  · exact extract_rental_price_spec.2.2.1 (codes "450") (by decide) (by decide)

end RealEstate

namespace RealEstate

/-! ### Lemmas about feature-string parsing -/

theorem splitSepGo_sep (acc rest : Str) :
    splitSepGo acc (44 :: 32 :: 44 :: rest) = acc.reverse :: splitSepGo [] rest := rfl

theorem splitSepGo_cons (acc : Str) (c : ℕ) (rest : Str) (h : c ≠ 44) :
    splitSepGo acc (c :: rest) = splitSepGo (c :: acc) rest := by
  rw [splitSepGo.eq_def]
  split
  · rename_i heq
    simp at heq
  · rename_i heq
    rw [List.cons.injEq] at heq
    exact absurd heq.1 h
  · rename_i heq
    rw [List.cons.injEq] at heq
    rw [heq.1, heq.2]

theorem splitSepGo_append (a : Str) (h : 44 ∉ a) :
    ∀ acc rest, splitSepGo acc (a ++ 44 :: 32 :: 44 :: rest) =
      (acc.reverse ++ a) :: splitSepGo [] rest := by
  induction a with
  | nil =>
    intro acc rest
    rw [List.nil_append, splitSepGo_sep, List.append_nil]
  | cons c a' ih =>
    intro acc rest
    have hc : c ≠ 44 := fun hc => h (hc ▸ List.mem_cons_self _ _)
    rw [List.cons_append, splitSepGo_cons _ _ _ hc,
      ih (fun hm => h (List.mem_cons_of_mem _ hm)) (c :: acc) rest,
      List.reverse_cons, List.append_assoc, List.singleton_append]

theorem splitSepGo_final (a : Str) (h : 44 ∉ a) :
    ∀ acc, splitSepGo acc a = [acc.reverse ++ a] := by
  induction a with
  | nil => intro acc; rw [splitSepGo.eq_def, List.append_nil]
  | cons c a' ih =>
    intro acc
    have hc : c ≠ 44 := fun hc => h (hc ▸ List.mem_cons_self _ _)
    rw [splitSepGo_cons _ _ _ hc, ih (fun hm => h (List.mem_cons_of_mem _ hm)),
      List.reverse_cons, List.append_assoc, List.singleton_append]

theorem splitSepGo_trailing (a : Str) (h : 44 ∉ a) :
    ∀ acc, splitSepGo acc (a ++ [44]) = [acc.reverse ++ a ++ [44]] := by
  induction a with
  | nil =>
    intro acc
    show splitSepGo acc [44] = _
    have h1 : splitSepGo acc [44] = [(44 :: acc).reverse] := rfl
    rw [h1, List.reverse_cons]
    simp
  | cons c a' ih =>
    intro acc
    have hc : c ≠ 44 := fun hc => h (hc ▸ List.mem_cons_self _ _)
    rw [List.cons_append, splitSepGo_cons _ _ _ hc,
      ih (fun hm => h (List.mem_cons_of_mem _ hm)),
      List.reverse_cons]
    simp [List.append_assoc]

theorem dropWhile_all_false (p : ℕ → Bool) (l : Str)
    (h : ∀ c ∈ l, p c = false) : l.dropWhile p = l := by
  cases l with
  | nil => rfl
  | cons c rest =>
    rw [List.dropWhile_cons, h c (List.mem_cons_self _ _)]
    simp

theorem stripSpaces_id (s : Str) (h : ∀ c ∈ s, c ≠ 32) : stripSpaces s = s := by
  unfold stripSpaces
  rw [dropWhile_all_false _ s (fun c hc => by simp [h c hc])]
  rw [dropWhile_all_false _ s.reverse
    (fun c hc => by simp [h c (List.mem_reverse.1 hc)])]
  exact List.reverse_reverse s

theorem rstripCommas_id (s : Str) (h : ∀ c ∈ s, c ≠ 44) : rstripCommas s = s := by
  unfold rstripCommas
  rw [dropWhile_all_false _ s.reverse
    (fun c hc => by simp [h c (List.mem_reverse.1 hc)])]
  exact List.reverse_reverse s

theorem dropWhile_cons_true (p : ℕ → Bool) (c : ℕ) (l : Str) (h : p c = true) :
    (c :: l).dropWhile p = l.dropWhile p := by
  rw [List.dropWhile_cons, h]
  simp

theorem rstripCommas_trail (s : Str) (h : ∀ c ∈ s, c ≠ 44) :
    rstripCommas (s ++ [44]) = s := by
  unfold rstripCommas
  rw [List.reverse_append]
  show ((44 :: s.reverse).dropWhile (fun c => c = 44)).reverse = s
  rw [dropWhile_cons_true _ _ _ (by decide)]
  rw [dropWhile_all_false _ s.reverse
    (fun c hc => by simp [h c (List.mem_reverse.1 hc)])]
  exact List.reverse_reverse s

end RealEstate

namespace RealEstate

theorem wfSlot_chars (s : Str) (h : wfSlot s) :
    ∀ c ∈ s, c ≠ 44 ∧ c ≠ 32 ∧ c ≠ 104 ∧ c ≠ 109 ∧ c ≠ 46 := by
  intro c hc
  rcases h with h | ⟨_, h⟩
  · subst h
    rcases List.mem_cons.1 hc with hc | hc
    · subst hc
      refine ⟨by omega, by omega, by omega, by omega, by omega⟩
    · simp at hc
  · have := h c hc
    unfold isDigitCode at this
    simp only [Bool.and_eq_true, decide_eq_true_eq] at this
    refine ⟨by omega, by omega, by omega, by omega, by omega⟩

theorem digit_chars (s : Str) (h : ∀ c ∈ s, isDigitCode c = true) :
    ∀ c ∈ s, c ≠ 44 ∧ c ≠ 32 ∧ c ≠ 104 ∧ c ≠ 109 ∧ c ≠ 46 := by
  intro c hc
  have := h c hc
  unfold isDigitCode at this
  simp only [Bool.and_eq_true, decide_eq_true_eq] at this
  refine ⟨by omega, by omega, by omega, by omega, by omega⟩

theorem containsSub_false_of_head_notin (ph : ℕ) (pt : Str) (s : Str)
    (h : ∀ c ∈ s, c ≠ ph) : containsSub (ph :: pt) s = false := by
  induction s with
  | nil => rfl
  | cons c rest ih =>
    rw [containsSub, Bool.or_eq_false_iff]
    constructor
    · show (ph == c && isPrefixOfB pt rest) = false
      rw [Bool.and_eq_false_iff]
      left
      simp [Ne.symm (h c (List.mem_cons_self _ _))]
    · exact ih (fun c hc => h c (List.mem_cons_of_mem _ hc))

theorem containsSub_append_right (pat s t : Str) (h : containsSub pat t = true) :
    containsSub pat (s ++ t) = true := by
  induction s with
  | nil => exact h
  | cons c s' ih =>
    rw [List.cons_append, containsSub, Bool.or_eq_true]
    exact Or.inr ih

theorem removeHA_cons (c : ℕ) (rest : Str) (h : c ≠ 104) :
    removeHA (c :: rest) = c :: removeHA rest := by
  rw [removeHA.eq_def]
  split
  · rename_i heq
    simp at heq
  · rename_i heq
    rw [List.cons.injEq] at heq
    exact absurd heq.1 h
  · rename_i heq
    rw [List.cons.injEq] at heq
    rw [heq.1, heq.2]

theorem removeHA_front (a t : Str) (h : ∀ c ∈ a, c ≠ 104) :
    removeHA (a ++ t) = a ++ removeHA t := by
  induction a with
  | nil => rfl
  | cons c a' ih =>
    rw [List.cons_append, removeHA_cons _ _ (h c (List.mem_cons_self _ _)),
      ih (fun c hc => h c (List.mem_cons_of_mem _ hc)), List.cons_append]

theorem removeM2_cons (c : ℕ) (rest : Str) (h : c ≠ 109) :
    removeM2 (c :: rest) = c :: removeM2 rest := by
  rw [removeM2.eq_def]
  split
  · rename_i heq
    simp at heq
  · rename_i heq
    rw [List.cons.injEq] at heq
    exact absurd heq.1 h
  · rename_i heq
    rw [List.cons.injEq] at heq
    rw [heq.1, heq.2]

theorem removeM2_front (a t : Str) (h : ∀ c ∈ a, c ≠ 109) :
    removeM2 (a ++ t) = a ++ removeM2 t := by
  induction a with
  | nil => rfl
  | cons c a' ih =>
    rw [List.cons_append, removeM2_cons _ _ (h c (List.mem_cons_self _ _)),
      ih (fun c hc => h c (List.mem_cons_of_mem _ hc)), List.cons_append]

theorem removeCommas_id (s : Str) (h : ∀ c ∈ s, c ≠ 44) : removeCommas s = s := by
  unfold removeCommas
  rw [List.filter_eq_self]
  intro a ha
  simp [h a ha]

theorem pyIntStr_digits (ds : Str) (hne : ds ≠ [])
    (hd : ∀ c ∈ ds, isDigitCode c = true) :
    pyIntStr ds = Except.ok ((digitsVal ds : ℤ)) := by
  unfold pyIntStr
  rw [stripSpaces_id ds (fun c hc => (digit_chars ds hd c hc).2.1)]
  cases ds with
  | nil => exact absurd rfl hne
  | cons d rest =>
    have hdd := hd d (List.mem_cons_self _ _)
    unfold isDigitCode at hdd
    simp only [Bool.and_eq_true, decide_eq_true_eq] at hdd
    rw [pyIntCore, if_neg (by omega), if_neg (by omega)]
    unfold pyDigitsOnly
    rw [if_pos ⟨by simp, by rw [List.all_eq_true]; exact hd⟩]
    rfl

end RealEstate

namespace RealEstate

theorem parseSlot_wf (s : Str) (h : wfSlot s) :
    parseSlot s = Except.ok (slotVal s) ∧
    parseSlot (s ++ [44]) = Except.ok (slotVal s) := by
  have hchars := wfSlot_chars s h
  have hstrip : stripSpaces s = s := stripSpaces_id s (fun c hc => (hchars c hc).2.1)
  have hr : rstripCommas s = s := rstripCommas_id s (fun c hc => (hchars c hc).1)
  have hstrip2 : stripSpaces (s ++ [44]) = s ++ [44] := by
    apply stripSpaces_id
    intro c hc
    rcases List.mem_append.1 hc with hc | hc
    · exact (hchars c hc).2.1
    · simp at hc
      omega
  have hr2 : rstripCommas (s ++ [44]) = s :=
    rstripCommas_trail s (fun c hc => (hchars c hc).1)
  unfold parseSlot
  rw [hstrip, hr, hstrip2, hr2]
  rcases h with hm | ⟨hne, hd⟩
  · subst hm
    exact ⟨rfl, rfl⟩
  · have hnm : s ≠ [8722] := by
      intro hc
      have := hd 8722 (hc ▸ List.mem_cons_self _ _)
      unfold isDigitCode at this
      simp at this
    have hcond : ¬(s = [8722] ∨ s = []) := by
      intro hc
      rcases hc with hc | hc
      · exact hnm hc
      · exact hne hc
    rw [if_neg hcond, pyIntStr_digits s hne hd]
    unfold slotVal
    rw [if_neg hnm]
    exact ⟨rfl, rfl⟩

theorem codes_ha : codes "ha" = [104, 97] := rfl

theorem codes_m2 : codes "m²" = [109, 178] := rfl

theorem parseSlot0_wf (s : Str) (h : wfSlot s) :
    parseSlot0 s = Except.ok (slotVal s, none) := by
  have hchars := wfSlot_chars s h
  have hstrip : stripSpaces s = s := stripSpaces_id s (fun c hc => (hchars c hc).2.1)
  have hr : rstripCommas s = s := rstripCommas_id s (fun c hc => (hchars c hc).1)
  unfold parseSlot0
  rw [hstrip, hr, codes_ha, codes_m2]
  rw [containsSub_false_of_head_notin 104 [97] s (fun c hc => (hchars c hc).2.2.1)]
  rw [containsSub_false_of_head_notin 109 [178] s (fun c hc => (hchars c hc).2.2.2.1)]
  rw [if_neg (by simp)]
  rw [(parseSlot_wf s h).1]
  rfl

theorem parseLandFrom_m2 (ds : Str) (hne : ds ≠ [])
    (hd : ∀ c ∈ ds, isDigitCode c = true) :
    parseLandFrom (ds ++ codes "m²") = Except.ok (some ((digitsVal ds : ℤ))) := by
  have hchars := digit_chars ds hd
  unfold parseLandFrom
  rw [codes_ha, codes_m2]
  have hha : containsSub [104, 97] (ds ++ [109, 178]) = false := by
    apply containsSub_false_of_head_notin
    intro c hc
    rcases List.mem_append.1 hc with hc | hc
    · exact (hchars c hc).2.2.1
    · simp at hc
      omega
  rw [hha, if_neg (by simp)]
  have hm2 : containsSub [109, 178] (ds ++ [109, 178]) = true :=
    containsSub_append_right _ ds _ (by decide)
  rw [if_pos hm2]
  have hrm : removeM2 (ds ++ [109, 178]) = ds := by
    rw [removeM2_front ds _ (fun c hc => (hchars c hc).2.2.2.1)]
    simp [removeM2]
  rw [hrm, removeCommas_id ds (fun c hc => (hchars c hc).1),
    stripSpaces_id ds (fun c hc => (hchars c hc).2.1)]
  have hnm : ds ≠ [8722] := by
    intro hc
    have := hd 8722 (hc ▸ List.mem_cons_self _ _)
    unfold isDigitCode at this
    simp at this
  rw [if_pos ⟨hne, hnm⟩, pyIntStr_digits ds hne hd]
  rfl

theorem pyIntOfRat_exact (n m : ℕ) :
    pyIntOfRat (((n : ℚ) + (m : ℚ) / 100) * 10000) =
      10000 * (n : ℤ) + 100 * (m : ℤ) := by
  have he : ((n : ℚ) + (m : ℚ) / 100) * 10000 =
      ((10000 * (n : ℤ) + 100 * (m : ℤ) : ℤ) : ℚ) := by
    push_cast
    ring
  unfold pyIntOfRat
  rw [he, if_pos (by exact_mod_cast (by positivity : (0:ℤ) ≤ 10000 * (n:ℤ) + 100 * m))]
  exact Int.floor_intCast _

theorem pyFloatStr_decimal (ip : Str) (d1 d2 : ℕ) (hne : ip ≠ [])
    (hd : ∀ c ∈ ip, isDigitCode c = true)
    (h1 : isDigitCode d1 = true) (h2 : isDigitCode d2 = true) :
    pyFloatStr (ip ++ 46 :: [d1, d2]) =
      Except.ok ((digitsVal ip : ℚ) + (digitsVal [d1, d2] : ℚ) / 100) := by
  have hchars := digit_chars ip hd
  unfold isDigitCode at h1 h2
  simp only [Bool.and_eq_true, decide_eq_true_eq] at h1 h2
  unfold pyFloatStr
  rw [stripSpaces_id _ (by
    intro c hc
    rcases List.mem_append.1 hc with hc | hc
    · exact (hchars c hc).2.1
    · simp at hc
      omega)]
  cases ip with
  | nil => exact absurd rfl hne
  | cons i0 ip' =>
    have hi0 := hd i0 (List.mem_cons_self _ _)
    unfold isDigitCode at hi0
    simp only [Bool.and_eq_true, decide_eq_true_eq] at hi0
    rw [List.cons_append, pyFloatCore, if_neg (by omega), if_neg (by omega),
      ← List.cons_append]
    unfold pyFloatBody
    obtain ⟨ht, hdr⟩ := takeWhile_head_false (fun c => isDigitCode c) (46 :: [d1, d2])
      (by
        intro c hc
        rw [List.head?] at hc
        rw [Option.some_inj] at hc
        subst hc
        unfold isDigitCode
        simp)
    rw [dropWhile_append_all _ _ _ hd, hdr, takeWhile_append_all _ _ _ hd, ht,
      List.append_nil]
    rw [if_neg (by simp), if_pos (by rfl)]
    rw [if_pos ⟨by
      rw [List.all_eq_true]
      intro c hc
      simp only [List.tail_cons] at hc
      rcases List.mem_cons.1 hc with hc | hc
      · subst hc; unfold isDigitCode; simp; omega
      · simp at hc; subst hc; unfold isDigitCode; simp; omega, Or.inl hne⟩]
    simp [digitsVal]
    norm_num

end RealEstate

namespace RealEstate

theorem parseLandFrom_ha (ip : Str) (d1 d2 : ℕ) (hne : ip ≠ [])
    (hd : ∀ c ∈ ip, isDigitCode c = true)
    (h1 : isDigitCode d1 = true) (h2 : isDigitCode d2 = true) :
    parseLandFrom ((ip ++ [46, d1, d2]) ++ codes "ha") =
      Except.ok (some (10000 * (digitsVal ip : ℤ) + 100 * (digitsVal [d1, d2] : ℤ))) := by
  have hchars := digit_chars ip hd
  have h1n := h1
  have h2n := h2
  unfold isDigitCode at h1n h2n
  simp only [Bool.and_eq_true, decide_eq_true_eq] at h1n h2n
  have hpre : ∀ c ∈ ip ++ [46, d1, d2],
      c ≠ 44 ∧ c ≠ 32 ∧ c ≠ 104 ∧ c ≠ 109 := by
    intro c hc
    rcases List.mem_append.1 hc with hc | hc
    · exact ⟨(hchars c hc).1, (hchars c hc).2.1, (hchars c hc).2.2.1,
        (hchars c hc).2.2.2.1⟩
    · simp at hc
      rcases hc with hc | hc | hc <;> subst hc <;>
        refine ⟨by omega, by omega, by omega, by omega⟩
  unfold parseLandFrom
  rw [codes_ha]
  have hha : containsSub [104, 97] ((ip ++ [46, d1, d2]) ++ [104, 97]) = true :=
    containsSub_append_right _ _ _ (by decide)
  rw [hha, if_pos rfl]
  have hrm : removeHA ((ip ++ [46, d1, d2]) ++ [104, 97]) = ip ++ [46, d1, d2] := by
    rw [removeHA_front _ _ (fun c hc => (hpre c hc).2.2.1)]
    simp [removeHA]
  rw [hrm, removeCommas_id _ (fun c hc => (hpre c hc).1),
    stripSpaces_id _ (fun c hc => (hpre c hc).2.1)]
  have hcne : ip ++ [46, d1, d2] ≠ [] := by
    intro hc
    rw [List.append_eq_nil] at hc
    exact hne hc.1
  have hcnm : ip ++ [46, d1, d2] ≠ [8722] := by
    intro hc
    have := congrArg List.length hc
    simp at this
  rw [if_pos ⟨hcne, hcnm⟩]
  have hfl := pyFloatStr_decimal ip d1 d2 hne hd h1 h2
  rw [show ip ++ 46 :: [d1, d2] = ip ++ [46, d1, d2] from rfl] at hfl
  rw [hfl]
  show Except.ok (some (pyIntOfRat (((digitsVal ip : ℚ) + (digitsVal [d1, d2] : ℚ) / 100) * 10000))) = _
  rw [pyIntOfRat_exact]

theorem wfSlot_no44 (s : Str) (h : wfSlot s) : 44 ∉ s :=
  fun hm => (wfSlot_chars s h 44 hm).1 rfl

/-- C8: parsing well-formed feature strings.  The three plain slots are
    recovered positionally with placeholders degrading to missing; an
    appended m² token sets the land area to its integer; an appended
    hectare token with two decimals sets it to the exactly scaled (and
    truncated = rounded) square-metre value; and a first slot that itself
    carries a land-area marker is reclassified as land area while bedrooms
    stays missing. -/
theorem parse_property_features_spec :
    (∀ s1 s2 s3 : Str, wfSlot s1 → wfSlot s2 → wfSlot s3 →
      parsePropertyFeatures
        (s1 ++ 44 :: 32 :: 44 :: (s2 ++ 44 :: 32 :: 44 :: (s3 ++ [44]))) =
        Except.ok (slotVal s1, slotVal s2, slotVal s3, none)) ∧
    (∀ s1 s2 s3 ds : Str, wfSlot s1 → wfSlot s2 → wfSlot s3 → ds ≠ [] →
      (∀ c ∈ ds, isDigitCode c = true) →
      parsePropertyFeatures
        (s1 ++ 44 :: 32 :: 44 :: (s2 ++ 44 :: 32 :: 44 :: (s3 ++ 44 :: 32 :: 44 ::
          ((ds ++ codes "m²") ++ [44])))) =
        Except.ok (slotVal s1, slotVal s2, slotVal s3, some ((digitsVal ds : ℤ)))) ∧
    (∀ s1 s2 s3 ip : Str, ∀ d1 d2 : ℕ, wfSlot s1 → wfSlot s2 → wfSlot s3 →
      ip ≠ [] → (∀ c ∈ ip, isDigitCode c = true) →
      isDigitCode d1 = true → isDigitCode d2 = true →
      parsePropertyFeatures
        (s1 ++ 44 :: 32 :: 44 :: (s2 ++ 44 :: 32 :: 44 :: (s3 ++ 44 :: 32 :: 44 ::
          (((ip ++ [46, d1, d2]) ++ codes "ha") ++ [44])))) =
        Except.ok (slotVal s1, slotVal s2, slotVal s3,
          some (10000 * (digitsVal ip : ℤ) + 100 * (digitsVal [d1, d2] : ℤ)))) ∧
    (∀ s2 s3 ip : Str, ∀ d1 d2 : ℕ, wfSlot s2 → wfSlot s3 →
      ip ≠ [] → (∀ c ∈ ip, isDigitCode c = true) →
      isDigitCode d1 = true → isDigitCode d2 = true →
      parsePropertyFeatures
        (((ip ++ [46, d1, d2]) ++ codes "ha") ++ 44 :: 32 :: 44 ::
          (s2 ++ 44 :: 32 :: 44 :: (s3 ++ [44]))) =
        Except.ok (none, slotVal s2, slotVal s3,
          some (10000 * (digitsVal ip : ℤ) + 100 * (digitsVal [d1, d2] : ℤ)))) := by
  have hland_chars : ∀ (ip : Str) (d1 d2 : ℕ),
      (∀ c ∈ ip, isDigitCode c = true) → isDigitCode d1 = true →
      isDigitCode d2 = true →
      ∀ c ∈ (ip ++ [46, d1, d2]) ++ codes "ha", c ≠ 44 ∧ c ≠ 32 := by
    intro ip d1 d2 hd hd1 hd2 c hc
    unfold isDigitCode at hd1 hd2
    simp only [Bool.and_eq_true, decide_eq_true_eq] at hd1 hd2
    rcases List.mem_append.1 hc with hc | hc
    · rcases List.mem_append.1 hc with hc | hc
      · exact ⟨(digit_chars ip hd c hc).1, (digit_chars ip hd c hc).2.1⟩
      · simp at hc
        rcases hc with hc | hc | hc <;> subst hc <;> exact ⟨by omega, by omega⟩
    · rw [codes_ha] at hc
      simp at hc
      rcases hc with hc | hc <;> subst hc <;> exact ⟨by omega, by omega⟩
  refine ⟨?_, ?_, ?_, ?_⟩
  · -- three plain slots
    intro s1 s2 s3 h1 h2 h3
    have hsplit : splitSep
        (s1 ++ 44 :: 32 :: 44 :: (s2 ++ 44 :: 32 :: 44 :: (s3 ++ [44]))) =
        [s1, s2, s3 ++ [44]] := by
      unfold splitSep
      rw [splitSepGo_append s1 (wfSlot_no44 s1 h1),
        splitSepGo_append s2 (wfSlot_no44 s2 h2),
        splitSepGo_trailing s3 (wfSlot_no44 s3 h3)]
      simp
    unfold parsePropertyFeatures slotOf landOf
    rw [hsplit]
    simp only [List.get?_cons_zero, List.get?_cons_succ, List.get?_nil]
    rw [parseSlot0_wf s1 h1, (parseSlot_wf s2 h2).1, (parseSlot_wf s3 h3).2]
    rfl
  · -- appended m² token
    intro s1 s2 s3 ds h1 h2 h3 hne hd
    have hm2chars : ∀ c ∈ ds ++ codes "m²", c ≠ 44 ∧ c ≠ 32 := by
      intro c hc
      rcases List.mem_append.1 hc with hc | hc
      · exact ⟨(digit_chars ds hd c hc).1, (digit_chars ds hd c hc).2.1⟩
      · rw [codes_m2] at hc
        simp at hc
        rcases hc with hc | hc <;> subst hc <;> exact ⟨by omega, by omega⟩
    have hsplit : splitSep
        (s1 ++ 44 :: 32 :: 44 :: (s2 ++ 44 :: 32 :: 44 :: (s3 ++ 44 :: 32 :: 44 ::
          ((ds ++ codes "m²") ++ [44])))) =
        [s1, s2, s3, (ds ++ codes "m²") ++ [44]] := by
      unfold splitSep
      rw [splitSepGo_append s1 (wfSlot_no44 s1 h1),
        splitSepGo_append s2 (wfSlot_no44 s2 h2),
        splitSepGo_append s3 (wfSlot_no44 s3 h3),
        splitSepGo_trailing _ (fun hm => (hm2chars 44 hm).1 rfl)]
      simp
    unfold parsePropertyFeatures slotOf landOf
    rw [hsplit]
    simp only [List.get?_cons_zero, List.get?_cons_succ, List.get?_nil]
    rw [parseSlot0_wf s1 h1, (parseSlot_wf s2 h2).1, (parseSlot_wf s3 h3).1]
    show _ = Except.ok (slotVal s1, slotVal s2, slotVal s3, some ((digitsVal ds : ℤ)))
    have hstrip : stripSpaces ((ds ++ codes "m²") ++ [44]) = (ds ++ codes "m²") ++ [44] := by
      apply stripSpaces_id
      intro c hc
      rcases List.mem_append.1 hc with hc | hc
      · exact (hm2chars c hc).2
      · simp at hc
        omega
    have hrs : rstripCommas ((ds ++ codes "m²") ++ [44]) = ds ++ codes "m²" :=
      rstripCommas_trail _ (fun c hc => (hm2chars c hc).1)
    show (Except.ok (slotVal s1, none)).bind _ = _
    simp only [Except.bind]
    rw [hstrip, hrs, parseLandFrom_m2 ds hne hd]
    rfl
  · -- appended hectare token
    intro s1 s2 s3 ip d1 d2 h1 h2 h3 hne hd hd1 hd2
    have hlc := hland_chars ip d1 d2 hd hd1 hd2
    have hsplit : splitSep
        (s1 ++ 44 :: 32 :: 44 :: (s2 ++ 44 :: 32 :: 44 :: (s3 ++ 44 :: 32 :: 44 ::
          (((ip ++ [46, d1, d2]) ++ codes "ha") ++ [44])))) =
        [s1, s2, s3, ((ip ++ [46, d1, d2]) ++ codes "ha") ++ [44]] := by
      unfold splitSep
      rw [splitSepGo_append s1 (wfSlot_no44 s1 h1),
        splitSepGo_append s2 (wfSlot_no44 s2 h2),
        splitSepGo_append s3 (wfSlot_no44 s3 h3),
        splitSepGo_trailing _ (fun hm => (hlc 44 hm).1 rfl)]
      simp
    unfold parsePropertyFeatures slotOf landOf
    rw [hsplit]
    simp only [List.get?_cons_zero, List.get?_cons_succ, List.get?_nil]
    rw [parseSlot0_wf s1 h1, (parseSlot_wf s2 h2).1, (parseSlot_wf s3 h3).1]
    have hstrip : stripSpaces (((ip ++ [46, d1, d2]) ++ codes "ha") ++ [44]) =
        ((ip ++ [46, d1, d2]) ++ codes "ha") ++ [44] := by
      apply stripSpaces_id
      intro c hc
      rcases List.mem_append.1 hc with hc | hc
      · exact (hlc c hc).2
      · simp at hc
        omega
    have hrs : rstripCommas (((ip ++ [46, d1, d2]) ++ codes "ha") ++ [44]) =
        (ip ++ [46, d1, d2]) ++ codes "ha" :=
      rstripCommas_trail _ (fun c hc => (hlc c hc).1)
    show (Except.ok (slotVal s1, none)).bind _ = _
    simp only [Except.bind]
    rw [hstrip, hrs, parseLandFrom_ha ip d1 d2 hne hd hd1 hd2]
    rfl
  · -- land-area token in the first slot
    intro s2 s3 ip d1 d2 h2 h3 hne hd hd1 hd2
    have hlc := hland_chars ip d1 d2 hd hd1 hd2
    have hsplit : splitSep
        (((ip ++ [46, d1, d2]) ++ codes "ha") ++ 44 :: 32 :: 44 ::
          (s2 ++ 44 :: 32 :: 44 :: (s3 ++ [44]))) =
        [(ip ++ [46, d1, d2]) ++ codes "ha", s2, s3 ++ [44]] := by
      unfold splitSep
      rw [splitSepGo_append _ (fun hm => (hlc 44 hm).1 rfl),
        splitSepGo_append s2 (wfSlot_no44 s2 h2),
        splitSepGo_trailing s3 (wfSlot_no44 s3 h3)]
      simp
    unfold parsePropertyFeatures slotOf landOf
    rw [hsplit]
    simp only [List.get?_cons_zero, List.get?_cons_succ, List.get?_nil]
    rw [(parseSlot_wf s2 h2).1, (parseSlot_wf s3 h3).2]
    have hstrip : stripSpaces ((ip ++ [46, d1, d2]) ++ codes "ha") =
        (ip ++ [46, d1, d2]) ++ codes "ha" :=
      stripSpaces_id _ (fun c hc => (hlc c hc).2)
    have hrs : rstripCommas ((ip ++ [46, d1, d2]) ++ codes "ha") =
        (ip ++ [46, d1, d2]) ++ codes "ha" :=
      rstripCommas_id _ (fun c hc => (hlc c hc).1)
    unfold parseSlot0
    rw [hstrip, hrs, codes_ha]
    have hha : containsSub [104, 97] ((ip ++ [46, d1, d2]) ++ [104, 97]) = true :=
      containsSub_append_right _ _ _ (by decide)
    rw [hha, if_pos (Or.inl rfl)]
    have hl := parseLandFrom_ha ip d1 d2 hne hd hd1 hd2
    rw [codes_ha] at hl
    rw [hl]
    rfl

/-- Witness for C8 at concrete feature strings. -/
theorem parse_property_features_spec_witness :
    parsePropertyFeatures
      (codes "3" ++ 44 :: 32 :: 44 :: (codes "2" ++ 44 :: 32 :: 44 ::
        (codes "1" ++ [44]))) =
      Except.ok (slotVal (codes "3"), slotVal (codes "2"), slotVal (codes "1"),
        none) ∧
    parsePropertyFeatures
      (codes "3" ++ 44 :: 32 :: 44 :: (codes "2" ++ 44 :: 32 :: 44 ::
        (codes "1" ++ 44 :: 32 :: 44 :: ((codes "460" ++ codes "m²") ++ [44])))) =
      Except.ok (slotVal (codes "3"), slotVal (codes "2"), slotVal (codes "1"),
        some ((digitsVal (codes "460") : ℤ))) ∧
    parsePropertyFeatures
      (codes "3" ++ 44 :: 32 :: 44 :: (codes "2" ++ 44 :: 32 :: 44 ::
        (codes "1" ++ 44 :: 32 :: 44 ::
          (((codes "12" ++ [46, 53, 49]) ++ codes "ha") ++ [44])))) =
      Except.ok (slotVal (codes "3"), slotVal (codes "2"), slotVal (codes "1"),
        some (10000 * (digitsVal (codes "12") : ℤ) +
          100 * (digitsVal [53, 49] : ℤ))) := by
  refine ⟨?_, ?_, ?_⟩
  · exact parse_property_features_spec.1 (codes "3") (codes "2") (codes "1")
      (by decide) (by decide) (by decide)
  · exact parse_property_features_spec.2.1 (codes "3") (codes "2") (codes "1")
      (codes "460") (by decide) (by decide) (by decide) (by decide) (by decide)
  · exact parse_property_features_spec.2.2.1 (codes "3") (codes "2") (codes "1")
      (codes "12") 53 49 (by decide) (by decide) (by decide) (by decide)
      (by decide) (by decide) (by decide)

end RealEstate

namespace RealEstate

/-- C9 counterexample: a single malformed row ("x" in the bedrooms slot)
    raises inside parse_property_features, and since the batch apply of
    preprocess_live_listings has no try/except, the whole two-row batch is
    aborted instead of proceeding with nulls in the affected fields. -/
theorem parse_batch_aborted_by_one_row :
    parsePropertyFeatures (codes "x, ,2, ,1,") = Except.error () ∧
    parseFeatureBatch [codes "3, ,2, ,1,", codes "x, ,2, ,1,"] =
      Except.error () := by
  refine ⟨by decide, by decide⟩

/-- C9 amended: placeholder and empty slots degrade to null without
    raising, but a non-numeric non-placeholder token raises, and the
    exception escapes the row-wise apply: any row whose parse fails aborts
    the whole batch. -/
theorem parse_feature_errors_escape :
    (∀ rows : List Str, (∃ r ∈ rows, parsePropertyFeatures r = Except.error ()) →
      parseFeatureBatch rows = Except.error ()) ∧
    parsePropertyFeatures (codes "−, ,−, ,−,") =
      Except.ok (none, none, none, none) := by
  constructor
  · intro rows h
    induction rows with
    | nil => simp at h
    | cons r rest ih =>
      unfold parseFeatureBatch at ih ⊢
      rw [List.mapM_cons]
      obtain ⟨r2, hmem, herr⟩ := h
      rcases List.mem_cons.1 hmem with hr | hr
      · subst hr
        rw [herr]
        rfl
      · rcases hpr : parsePropertyFeatures r with e | v
        · cases e
          rfl
        · have h2 := ih ⟨r2, hr, herr⟩
          show (Except.ok v).bind _ = Except.error ()
          simp only [Except.bind]
          rw [h2]
          rfl
  · decide

/-- Witness for the amended C9: a batch holding one malformed row errors. -/
theorem parse_feature_errors_escape_witness :
    parseFeatureBatch [codes "a, ,1, ,1,"] = Except.error () :=
  parse_feature_errors_escape.1 [codes "a, ,1, ,1,"]
    ⟨codes "a, ,1, ,1,", by decide, by decide⟩

end RealEstate
